import Mathlib

/-!
# MyLibrary `String` (src/String.h): storage-management core

A shallow embedding of the hand-written `String` class.  The class manages raw
storage through `std::allocator<char>` and three cursors (`elements`,
`first_free`, `cap`), so the embedding carries an explicit memory:

* storage is a family of blocks, one per call of `allocate`; a pointer is
  either null or a block number with an offset;
* `String` objects live in an object store and are named by their address, so
  that the tests `this != &s` of the assignment operators can be embedded as
  written;
* every operation returns `Except Fault _`: `bad_alloc` is the exception of a
  failed allocation (it carries the memory at the throw), `exit` the
  `exit(-1)` of `operator[]`, and `undefined`
  stands for an access the C++ standard gives no meaning (storage that was
  released, a slot outside its block, a raw slot that is read, a release of a
  pointer that is not a live allocation);
* the allocator hands out at most `room` slots in all and at most `max_size`
  in one request, and gets the slots of a released block back; the properties
  of operations that allocate are stated for a memory that can satisfy the
  request.

The trace output on `std::cout` of the constructors and assignment operators
is not part of the embedding, and destroying a `char` does nothing.
-/

namespace MyLibrary

/-- A `char*`: null, or an offset into an allocation. -/
inductive Ptr where
  | null : Ptr
  | addr (blk off : Nat) : Ptr
  deriving DecidableEq

/-- Offset of a pointer inside its block (0 for the null pointer). -/
def Ptr.off : Ptr → Nat
  | .null => 0
  | .addr _ o => o

/-- Pointer arithmetic `p + n`. -/
def Ptr.add : Ptr → Nat → Ptr
  | .null, _ => .null
  | .addr b o, n => .addr b (o + n)

/-- Number of values of `std::size_t` (64-bit). -/
def SIZE_MOD : Nat := 2 ^ 64

/-- Pointer difference `p - q` converted to `std::size_t`. -/
def Ptr.diff (p q : Ptr) : Nat :=
  (((p.off : Int) - (q.off : Int)) % (SIZE_MOD : Int)).toNat

/-- `std::allocator<char>::max_size()`: the largest request `allocate` accepts. -/
def max_size : Nat := 2 ^ 63 - 1

/-- One allocation: its number of slots, whether it is still allocated, and
the slots (`none` is raw storage in which no character was constructed). -/
structure Block where
  size : Nat
  live : Bool
  cells : Nat → Option Char

/-- The three cursors of a `String` object. -/
structure String where
  elements : Ptr
  first_free : Ptr
  cap : Ptr
  deriving DecidableEq

/-- Memory: the allocations made so far (`next` is the number of the next
one), the number of slots the allocator can still hand out, and the `String`
objects by address. -/
structure World where
  blocks : Nat → Block
  next : Nat
  room : Nat
  objs : Nat → String

/-- Ways an operation can end other than by returning.  `bad_alloc w` is the
exception thrown by the allocator, with the memory `w` at the time of the
throw (what the caller that catches it finds); `exit` is `exit(-1)`;
`undefined` is undefined behaviour. -/
inductive Fault where
  | bad_alloc (w : World)
  | exit
  | undefined

/-! ## The allocator -/

/-- Memory with a fresh block of `n` raw slots, numbered `w.next`. -/
def grab (w : World) (n : Nat) : World :=
  { w with
    blocks := Function.update w.blocks w.next ⟨n, true, fun _ => none⟩
    next := w.next + 1
    room := w.room - n }

/-- Memory with block `b`, of `n` slots, given back to the allocator. -/
def release (w : World) (b n : Nat) : World :=
  { w with
    blocks := Function.update w.blocks b { w.blocks b with live := false }
    room := w.room + n }

/-- `alloc.allocate(n)`: a fresh block of `n` raw slots, or `bad_alloc`. -/
def allocate (w : World) (n : Nat) : Except Fault (Ptr × World) :=
  if n ≤ max_size ∧ n ≤ w.room then
    .ok (.addr w.next 0, grab w n)
  else .error (.bad_alloc w)

/-- Memory with the character `c` put in slot `o` of block `b`. -/
def setCell (w : World) (b o : Nat) (c : Char) : World :=
  { w with
    blocks := Function.update w.blocks b
      { w.blocks b with cells := Function.update (w.blocks b).cells o (some c) } }

/-- `alloc.deallocate(p, n)`: `p` must be a live allocation of `n` slots. -/
def deallocate (w : World) (p : Ptr) (n : Nat) : Except Fault World :=
  match p with
  | .null => .error .undefined
  | .addr b o =>
    if (w.blocks b).live = true ∧ o = 0 ∧ (w.blocks b).size = n then
      .ok (release w b n)
    else .error .undefined

/-- `alloc.construct(p, c)`: construct `c` in the slot `p` points to. -/
def construct (w : World) (p : Ptr) (c : Char) : Except Fault World :=
  match p with
  | .null => .error .undefined
  | .addr b o =>
    if (w.blocks b).live = true ∧ o < (w.blocks b).size then
      .ok (setCell w b o c)
    else .error .undefined

/-- Read `*p`. -/
def load (w : World) (p : Ptr) : Except Fault Char :=
  match p with
  | .null => .error .undefined
  | .addr b o =>
    if (w.blocks b).live = true ∧ o < (w.blocks b).size then
      match (w.blocks b).cells o with
      | some c => .ok c
      | none => .error .undefined
    else .error .undefined

/-- Write `*p = c` through a `char&`. -/
def store (w : World) (p : Ptr) (c : Char) : Except Fault World :=
  match p with
  | .null => .error .undefined
  | .addr b o =>
    if (w.blocks b).live = true ∧ o < (w.blocks b).size then
      .ok (setCell w b o c)
    else .error .undefined

/-! ## Standard algorithms over pointer ranges -/

/-- Loop of `std::uninitialized_copy`: `n` characters from `src` to `dst`. -/
def uninitialized_copy_n : Nat → World → Ptr → Ptr → Except Fault (Ptr × World)
  | 0, w, _, d => .ok (d, w)
  | n + 1, w, s, d => do
    let c ← load w s
    let w1 ← construct w d c
    uninitialized_copy_n n w1 (s.add 1) (d.add 1)

/-- `std::uninitialized_copy(first, last, d_first)`; returns the end of the copy. -/
def uninitialized_copy (w : World) (first last d_first : Ptr) : Except Fault (Ptr × World) :=
  uninitialized_copy_n (Ptr.diff last first) w first d_first

/-- Loop of `std::for_each`: apply `f` to `n` characters starting at `p`. -/
def for_each_n : Nat → World → Ptr → (World → Char → Except Fault World) → Except Fault World
  | 0, w, _, _ => .ok w
  | n + 1, w, p, f => do
    let c ← load w p
    let w1 ← f w c
    for_each_n n w1 (p.add 1) f

/-- `std::for_each(first, last, f)`. -/
def for_each (w : World) (first last : Ptr) (f : World → Char → Except Fault World) :
    Except Fault World :=
  for_each_n (Ptr.diff last first) w first f

/-- Loop of `std::equal`: compare `n` characters, stopping at the first mismatch. -/
def equal_n : Nat → World → Ptr → Ptr → Except Fault Bool
  | 0, _, _, _ => .ok true
  | n + 1, w, p, q => do
    let a ← load w p
    let b ← load w q
    if a = b then equal_n n w (p.add 1) (q.add 1) else .ok false

/-- `std::equal(first1, last1, first2)`. -/
def equal (w : World) (first1 last1 first2 : Ptr) : Except Fault Bool :=
  equal_n (Ptr.diff last1 first1) w first1 first2

/-! ## Members of `String` -/

/-- Replace the object at address `this`. -/
def setObj (w : World) (this : Nat) (s : String) : World :=
  { w with objs := Function.update w.objs this s }

/-- `size()`: `first_free - elements`. -/
def size (w : World) (this : Nat) : Nat :=
  Ptr.diff (w.objs this).first_free (w.objs this).elements

/-- `length()`. -/
def length (w : World) (this : Nat) : Nat := size w this

/-- `capacity()`: `cap - elements`. -/
def capacity (w : World) (this : Nat) : Nat :=
  Ptr.diff (w.objs this).cap (w.objs this).elements

/-- `begin()`. -/
def begin_ (w : World) (this : Nat) : Ptr := (w.objs this).elements

/-- `end()`. -/
def end_ (w : World) (this : Nat) : Ptr := (w.objs this).first_free

/-- `free()`: destroy the live characters (nothing to do for `char`) and give
the allocation back; the cursors are left as they are. -/
def free (w : World) (this : Nat) : Except Fault World :=
  if (w.objs this).elements ≠ .null then
    deallocate w (w.objs this).elements (Ptr.diff (w.objs this).cap (w.objs this).elements)
  else .ok w

/-- `alloc_n_move(new_cap)`. -/
def alloc_n_move (w : World) (this : Nat) (new_cap : Nat) : Except Fault World := do
  let (first, w1) ← allocate w new_cap
  let (last, w2) ← uninitialized_copy w1 (begin_ w1 this) (end_ w1 this) first
  let w3 ← free w2 this
  .ok (setObj w3 this ⟨first, last, first.add new_cap⟩)

/-- `alloc_n_copy(b, e)`. -/
def alloc_n_copy (w : World) (b e : Ptr) : Except Fault ((Ptr × Ptr) × World) := do
  let (data, w1) ← allocate w (Ptr.diff e b)
  let (last, w2) ← uninitialized_copy w1 b e data
  .ok ((data, last), w2)

/-- `reallocate()`. -/
def reallocate (w : World) (this : Nat) : Except Fault World :=
  let new_cap := if size w this ≠ 0 then (2 * size w this) % SIZE_MOD else 1
  alloc_n_move w this new_cap

/-- `check_n_alloc()`. -/
def check_n_alloc (w : World) (this : Nat) : Except Fault World :=
  if size w this = capacity w this then reallocate w this else .ok w

/-- `range_initializer(b, e)`. -/
def range_initializer (w : World) (this : Nat) (b e : Ptr) : Except Fault World := do
  let (newdata, w1) ← alloc_n_copy w b e
  .ok (setObj w1 this ⟨newdata.1, newdata.2, newdata.2⟩)

/-- `reserve(new_cap)`. -/
def reserve (w : World) (this : Nat) (new_cap : Nat) : Except Fault World :=
  if new_cap ≤ capacity w this then .ok w else alloc_n_move w this new_cap

/-- `alloc.construct(first_free++, c)` on the object at `this`. -/
def construct_at_end (w : World) (this : Nat) (c : Char) : Except Fault World := do
  let w1 ← construct w (w.objs this).first_free c
  .ok (setObj w1 this { w1.objs this with first_free := (w1.objs this).first_free.add 1 })

/-- `push_back(c)`. -/
def push_back (w : World) (this : Nat) (c : Char) : Except Fault World := do
  let w1 ← check_n_alloc w this
  construct_at_end w1 this c

/-- `operator[](index)`: the reference to the slot, or `exit(-1)`. -/
def operator_index (w : World) (this : Nat) (index : Nat) : Except Fault Ptr :=
  if index ≥ size w this then .error .exit
  else .ok ((w.objs this).elements.add index)

/-- `operator+=(s)`. -/
def operator_plus_assign (w : World) (this : Nat) (s : Nat) : Except Fault World :=
  for_each w (begin_ w s) (end_ w s) (fun w c => do
    let w1 ← check_n_alloc w this
    construct_at_end w1 this c)

/-- `String()`. -/
def String_default (w : World) (this : Nat) : Except Fault World :=
  .ok (setObj w this ⟨.null, .null, .null⟩)

/-- `String(std::size_t n)`. -/
def String_n (w : World) (this : Nat) (n : Nat) : Except Fault World :=
  reserve (setObj w this ⟨.null, .null, .null⟩) this n

/-- The scan `while (*p) ++p;` of `String(const char*)`; the fuel is the
number of slots from `p` to the end of its block, past which the read is
undefined. -/
def scan_nul : Nat → World → Ptr → Except Fault Ptr
  | 0, _, _ => .error .undefined
  | fuel + 1, w, p => do
    let c ← load w p
    if c = Char.ofNat 0 then .ok p else scan_nul fuel w (p.add 1)

/-- Slots from `p` to the end of its block. -/
def slots_from (w : World) : Ptr → Nat
  | .null => 0
  | .addr b o => (w.blocks b).size - o

/-- `String(const char *s)`. -/
def String_cstr (w : World) (this : Nat) (s : Ptr) : Except Fault World := do
  let p ← scan_nul (slots_from w s) w s
  range_initializer w this s p

/-- `String(const String &s)`. -/
def String_copy (w : World) (this : Nat) (s : Nat) : Except Fault World :=
  range_initializer w this (w.objs s).elements (w.objs s).first_free

/-- `String(String &&s)`. -/
def String_move (w : World) (this : Nat) (s : Nat) : Except Fault World :=
  let w1 := setObj w this ⟨(w.objs s).elements, (w.objs s).first_free, (w.objs s).cap⟩
  .ok (setObj w1 s ⟨.null, .null, .null⟩)

/-- `operator=(const String &s)`. -/
def operator_assign (w : World) (this : Nat) (s : Nat) : Except Fault World :=
  if this ≠ s then do
    let (newstr, w1) ← alloc_n_copy w (w.objs s).elements (w.objs s).first_free
    let w2 ← free w1 this
    .ok (setObj w2 this ⟨newstr.1, newstr.2, newstr.2⟩)
  else .ok w

/-- `operator=(String &&s)`. -/
def operator_assign_move (w : World) (this : Nat) (s : Nat) : Except Fault World :=
  if this ≠ s then do
    let w1 ← free w this
    let w2 := setObj w1 this ⟨(w1.objs s).elements, (w1.objs s).first_free, (w1.objs s).cap⟩
    .ok (setObj w2 s ⟨.null, .null, .null⟩)
  else .ok w

/-- `operator==(lhs, rhs)`. -/
def operator_eq (w : World) (lhs rhs : Nat) : Except Fault Bool :=
  if size w lhs = size w rhs then equal w (begin_ w lhs) (end_ w lhs) (begin_ w rhs)
  else .ok false

/-- `operator!=(lhs, rhs)`. -/
def operator_ne (w : World) (lhs rhs : Nat) : Except Fault Bool := do
  let r ← operator_eq w lhs rhs
  .ok (!r)

/-- `operator+(s1, s2)`; the result is built in the object at `ret`. -/
def operator_plus (w : World) (ret : Nat) (s1 s2 : Nat) : Except Fault World := do
  let w1 ← String_n w ret ((size w s1 + size w s2) % SIZE_MOD)
  let w2 ← for_each w1 (begin_ w1 s1) (end_ w1 s1) (fun w c => construct_at_end w ret c)
  for_each w2 (begin_ w2 s2) (end_ w2 s2) (fun w c => construct_at_end w ret c)

/-- `operator+(s, c)`; the result is built in the object at `ret`. -/
def operator_plus_char (w : World) (ret : Nat) (s : Nat) (c : Char) : Except Fault World := do
  let w1 ← String_copy w ret s
  push_back w1 ret c

/-- `operator+(c, s)`; the result is built in the object at `ret`. -/
def char_operator_plus (w : World) (ret : Nat) (c : Char) (s : Nat) : Except Fault World := do
  let w1 ← String_n w ret ((size w s + 1) % SIZE_MOD)
  let w2 := setObj w1 ret { w1.objs ret with first_free := (w1.objs ret).first_free.add 1 }
  let w3 ← for_each w2 (begin_ w2 s) (end_ w2 s) (fun w d => construct_at_end w ret d)
  construct w3 (w3.objs ret).elements c

/-- `operator>>(is, s)`; `input` is the sequence of characters that `is >> c`
extracts before the stream fails. -/
def operator_shift_right (w : World) (input : List Char) (s : Nat) : Except Fault World := do
  let w1 ← free w s
  input.foldlM (fun w c => do
    let w2 ← check_n_alloc w s
    construct_at_end w2 s c) w1

/-- `~String()`. -/
def destructor (w : World) (this : Nat) : Except Fault World :=
  free w this

/-- `s[i]` as a value: the slot `operator[]` refers to, read. -/
def read (w : World) (this : Nat) (i : Nat) : Except Fault Char := do
  let p ← operator_index w this i
  load w p

/-! ## Well-formed objects -/

/-- The object at `a` is a `String` holding the characters `S` in storage of
`m` slots: either the empty state (three null cursors), or cursors into one
live allocation of `m` slots whose first `S.length` slots hold `S`. -/
def Holds (w : World) (a : Nat) (S : List Char) (m : Nat) : Prop :=
  (w.objs a = ⟨.null, .null, .null⟩ ∧ S = [] ∧ m = 0) ∨
  (∃ b, w.objs a = ⟨.addr b 0, .addr b S.length, .addr b m⟩ ∧ S.length ≤ m ∧ m ≤ max_size ∧
    b < w.next ∧ (w.blocks b).live = true ∧ (w.blocks b).size = m ∧
    ∀ k, k < S.length → (w.blocks b).cells k = S[k]?)

/-- The objects at `a` and `b` are different objects that do not share an
allocation. -/
def Separate (w : World) (a b : Nat) : Prop :=
  a ≠ b ∧ ((w.objs a).elements = (w.objs b).elements → (w.objs a).elements = .null)

/-! ## Specification vocabulary -/

/-- Memory after the characters `cs` were constructed in block `b` from
offset `o` on. -/
def fill (w : World) (b o : Nat) (cs : List Char) : World :=
  { w with
    blocks := Function.update w.blocks b
      { w.blocks b with
        cells := fun k => if o ≤ k ∧ k < o + cs.length then cs[k - o]? else (w.blocks b).cells k } }

/-- From `w` to `w'` only the object at `a` changed, and of the blocks that
existed only the one `a` owned; its new block, if it got one, is fresh. -/
def Frame (w w' : World) (a : Nat) : Prop :=
  (∀ j, j ≠ a → w'.objs j = w.objs j) ∧
  w.next ≤ w'.next ∧
  (∀ b, b < w.next → (w.objs a).elements ≠ .addr b 0 → w'.blocks b = w.blocks b) ∧
  ((w'.objs a).elements = (w.objs a).elements ∨
    ∃ b, w.next ≤ b ∧ (w'.objs a).elements = .addr b 0)

/-- The characters `S` are stored in a live block from offset `o` on. -/
def RangeAt (w : World) (b o : Nat) (S : List Char) : Prop :=
  b < w.next ∧ (w.blocks b).live = true ∧ (w.blocks b).size ≤ max_size ∧
  o + S.length ≤ (w.blocks b).size ∧
  ∀ k, k < S.length → (w.blocks b).cells (o + k) = S[k]?

/-- A NUL-terminated C string: `s` points at the characters `S`, none of them
NUL, followed by a NUL, all inside one live block. -/
def CStr (w : World) (s : Ptr) (S : List Char) : Prop :=
  ∃ b o, s = .addr b o ∧ RangeAt w b o S ∧ o + S.length < (w.blocks b).size ∧
    (w.blocks b).cells (o + S.length) = some (Char.ofNat 0) ∧ ∀ c ∈ S, c ≠ Char.ofNat 0

/-! ## Sample memories -/

/-- A block that was never allocated. -/
def noBlock : Block := ⟨0, false, fun _ => none⟩

/-- A block of `m` slots whose first slots hold the characters `S`. -/
def blockOf (S : List Char) (m : Nat) : Block := ⟨m, true, fun k => S[k]?⟩

/-- Sample memory: block 0 is the C string "hi", block 1 holds "hi" in 2
slots and belongs to the `String` at address 0, block 2 holds "bye" in 4
slots and belongs to the `String` at address 1, the object at address 2 is an
empty `String`, and the allocator has 100 slots left. -/
def sample : World :=
  { blocks := fun b =>
      if b = 0 then blockOf ['h', 'i', Char.ofNat 0] 3
      else if b = 1 then blockOf ['h', 'i'] 2
      else if b = 2 then blockOf ['b', 'y', 'e'] 4
      else noBlock
    next := 3
    room := 100
    objs := fun a =>
      if a = 0 then ⟨.addr 1 0, .addr 1 2, .addr 1 2⟩
      else if a = 1 then ⟨.addr 2 0, .addr 2 3, .addr 2 4⟩
      else ⟨.null, .null, .null⟩ }

/-- The object at `a` shows the same length, capacity and characters in `w'`
as in `w`. -/
def SameView (w w' : World) (a : Nat) : Prop :=
  length w' a = length w a ∧ capacity w' a = capacity w a ∧ ∀ i, read w' a i = read w a i

/-- The object at `a` has its cursors in a live block of `m` slots, with
`first_free` at offset `lo + S.length`, and the slots from `lo` on hold `S`;
the slots below `lo` are not constrained.  This is the state of the result of
`operator+(char, const String&)` while it is being built (`lo = 1`). -/
def HoldsFrom (w : World) (a : Nat) (lo : Nat) (S : List Char) (m : Nat) : Prop :=
  ∃ b, w.objs a = ⟨.addr b 0, .addr b (lo + S.length), .addr b m⟩ ∧ lo + S.length ≤ m ∧
    m ≤ max_size ∧ b < w.next ∧ (w.blocks b).live = true ∧ (w.blocks b).size = m ∧
    ∀ k, k < S.length → (w.blocks b).cells (lo + k) = S[k]?

/-- Number of calls of `reallocate()` while the characters `cs` are appended
to the object at `a` with `push_back`, one after the other: `check_n_alloc`
calls it exactly when `size() == capacity()`. -/
def reallocations (w : World) (a : Nat) : List Char → Nat
  | [] => 0
  | c :: cs =>
    (if size w a = capacity w a then 1 else 0) +
      (match push_back w a c with
        | .ok w1 => reallocations w1 a cs
        | .error _ => 0)

/-- The sample memory with an allocator that has no slot left. -/
def tight : World := { sample with room := 0 }

theorem diff_null : Ptr.diff .null .null = 0 := by
  simp [Ptr.diff, Ptr.off]

theorem diff_addr (b b2 o1 o2 : Nat) (h : o2 ≤ o1) (h1 : o1 ≤ max_size) :
    Ptr.diff (.addr b o1) (.addr b2 o2) = o1 - o2 := by
  have hm : max_size < SIZE_MOD := by unfold max_size SIZE_MOD; norm_num
  unfold Ptr.diff
  simp only [Ptr.off]
  have h2 : ((o1 : Int) - (o2 : Int)) = ((o1 - o2 : Nat) : Int) := by omega
  rw [h2, Int.emod_eq_of_lt (by omega) (by omega)]
  simp

/-! ## Projections of the memory transformers -/

@[simp] theorem setObj_blocks (w : World) (a : Nat) (s : String) :
    (setObj w a s).blocks = w.blocks := rfl
@[simp] theorem setObj_next (w : World) (a : Nat) (s : String) :
    (setObj w a s).next = w.next := rfl
@[simp] theorem setObj_room (w : World) (a : Nat) (s : String) :
    (setObj w a s).room = w.room := rfl
@[simp] theorem setObj_objs (w : World) (a : Nat) (s : String) :
    (setObj w a s).objs = Function.update w.objs a s := rfl
@[simp] theorem setCell_objs (w : World) (b o : Nat) (c : Char) :
    (setCell w b o c).objs = w.objs := rfl
@[simp] theorem setCell_next (w : World) (b o : Nat) (c : Char) :
    (setCell w b o c).next = w.next := rfl
@[simp] theorem setCell_room (w : World) (b o : Nat) (c : Char) :
    (setCell w b o c).room = w.room := rfl
@[simp] theorem setCell_blocks (w : World) (b o : Nat) (c : Char) :
    (setCell w b o c).blocks = Function.update w.blocks b
      { w.blocks b with cells := Function.update (w.blocks b).cells o (some c) } := rfl
@[simp] theorem grab_objs (w : World) (n : Nat) : (grab w n).objs = w.objs := rfl
@[simp] theorem grab_next (w : World) (n : Nat) : (grab w n).next = w.next + 1 := rfl
@[simp] theorem grab_room (w : World) (n : Nat) : (grab w n).room = w.room - n := rfl
@[simp] theorem grab_blocks (w : World) (n : Nat) :
    (grab w n).blocks = Function.update w.blocks w.next ⟨n, true, fun _ => none⟩ := rfl
@[simp] theorem release_objs (w : World) (b n : Nat) : (release w b n).objs = w.objs := rfl
@[simp] theorem release_next (w : World) (b n : Nat) : (release w b n).next = w.next := rfl
@[simp] theorem release_room (w : World) (b n : Nat) :
    (release w b n).room = w.room + n := rfl
@[simp] theorem release_blocks (w : World) (b n : Nat) :
    (release w b n).blocks = Function.update w.blocks b { w.blocks b with live := false } := rfl

/-! ## Copying a range into another block -/

@[simp] theorem fill_objs (w : World) (b o : Nat) (cs : List Char) :
    (fill w b o cs).objs = w.objs := rfl
@[simp] theorem fill_next (w : World) (b o : Nat) (cs : List Char) :
    (fill w b o cs).next = w.next := rfl
@[simp] theorem fill_room (w : World) (b o : Nat) (cs : List Char) :
    (fill w b o cs).room = w.room := rfl
@[simp] theorem fill_blocks (w : World) (b o : Nat) (cs : List Char) :
    (fill w b o cs).blocks = Function.update w.blocks b
      { w.blocks b with
        cells := fun k =>
          if o ≤ k ∧ k < o + cs.length then cs[k - o]? else (w.blocks b).cells k } := rfl

theorem fill_nil (w : World) (b o : Nat) : fill w b o [] = w := by
  cases w with
  | mk blocks next room objs =>
    have h : ∀ k, ¬ (o ≤ k ∧ k < o) := by omega
    simp [fill, h]

theorem fill_cons (w : World) (b o : Nat) (c : Char) (cs : List Char) :
    fill (setCell w b o c) b (o + 1) cs = fill w b o (c :: cs) := by
  cases w with
  | mk blocks next room objs =>
    simp only [fill, setCell, Function.update_idem, Function.update_same, World.mk.injEq, and_true, true_and]
    refine congrArg (Function.update blocks b) ?_
    refine congrArg (Block.mk _ _) ?_
    funext k
    by_cases h1 : k = o
    · subst h1
      simp
    · by_cases h2 : o + 1 ≤ k
      · have h3 : k - o = (k - (o + 1)) + 1 := by omega
        have h4 : o ≤ k := by omega
        simp only [h2, h4, true_and, List.length_cons, h3, List.getElem?_cons_succ]
        by_cases h5 : k < o + 1 + cs.length
        · have h6 : k < o + (cs.length + 1) := by omega
          simp [h5, h6]
        · have h6 : ¬ k < o + (cs.length + 1) := by omega
          simp [h5, h6, Function.update_noteq h1]
      · have h4 : ¬ o ≤ k := by omega
        simp [h2, h4, Function.update_noteq h1]

theorem uninitialized_copy_n_spec (cs : List Char) :
    ∀ (w : World) (bs os bd od : Nat), bs ≠ bd →
      (w.blocks bs).live = true → os + cs.length ≤ (w.blocks bs).size →
      (∀ k, k < cs.length → (w.blocks bs).cells (os + k) = cs[k]?) →
      (w.blocks bd).live = true → od + cs.length ≤ (w.blocks bd).size →
      uninitialized_copy_n cs.length w (.addr bs os) (.addr bd od)
        = .ok (.addr bd (od + cs.length), fill w bd od cs) := by
  induction cs with
  | nil =>
    intro w bs os bd od _ _ _ _ _ _
    simp [uninitialized_copy_n, fill_nil]
  | cons c cs ih =>
    intro w bs os bd od hne hls hss hcs hld hsd
    simp only [List.length_cons] at hss hsd
    have h0 := hcs 0 (by simp)
    simp only [Nat.add_zero, List.getElem?_cons_zero] at h0
    have hload : load w (.addr bs os) = .ok c := by
      have : os < (w.blocks bs).size := by omega
      simp [load, hls, this, h0]
    have hcon : construct w (.addr bd od) c = .ok (setCell w bd od c) := by
      have : od < (w.blocks bd).size := by omega
      simp [construct, hld, this]
    simp only [List.length_cons, uninitialized_copy_n, hload, hcon, bind, Except.bind, Ptr.add]
    rw [ih _ bs (os + 1) bd (od + 1) hne]
    · rw [fill_cons]
      congr 3
      omega
    · simp [setCell, Function.update_noteq hne, hls]
    · simp only [setCell, Function.update_noteq hne]; omega
    · intro k hk
      have := hcs (k + 1) (by simp; omega)
      simp only [setCell, Function.update_noteq hne]
      rw [show os + 1 + k = os + (k + 1) by omega, this]
      simp
    · simp [setCell, hld]
    · simp [setCell]; omega

/-! ## What a well-formed object shows through the public members -/

theorem max_size_lt : max_size < SIZE_MOD := by
  unfold max_size SIZE_MOD; norm_num

theorem Holds.size_eq {w : World} {a : Nat} {S : List Char} {m : Nat} (h : Holds w a S m) :
    size w a = S.length := by
  rcases h with ⟨ho, hS, _⟩ | ⟨b, ho, hle, hm, _⟩
  · simp [size, ho, hS, diff_null]
  · simp only [size, ho]
    rw [diff_addr _ _ _ _ (Nat.zero_le _) (by omega)]
    simp

theorem Holds.capacity_eq {w : World} {a : Nat} {S : List Char} {m : Nat} (h : Holds w a S m) :
    capacity w a = m := by
  rcases h with ⟨ho, _, hm⟩ | ⟨b, ho, hle, hm, _⟩
  · simp [capacity, ho, hm, diff_null]
  · simp only [capacity, ho]
    rw [diff_addr _ _ _ _ (Nat.zero_le _) hm]
    simp

theorem Holds.le {w : World} {a : Nat} {S : List Char} {m : Nat} (h : Holds w a S m) :
    S.length ≤ m ∧ m ≤ max_size := by
  rcases h with ⟨_, hS, hm⟩ | ⟨b, _, hle, hm, _⟩
  · subst hS; subst hm; simp
  · exact ⟨hle, hm⟩

theorem Holds.read_eq {w : World} {a : Nat} {S : List Char} {m : Nat} (h : Holds w a S m)
    (i : Nat) (hi : i < S.length) : read w a i = .ok (S.get ⟨i, hi⟩) := by
  have hs := h.size_eq
  rcases h with ⟨_, hS, _⟩ | ⟨b, ho, hle, hm, hb, hl, hsz, hc⟩
  · subst hS; simp at hi
  · have h1 : ¬ i ≥ size w a := by omega
    have h2 : i < (w.blocks b).size := by omega
    have h3 := hc i hi
    rw [List.getElem?_eq_getElem hi] at h3
    simp [read, operator_index, h1, ho, Ptr.add, load, hl, h2, h3, bind, Except.bind]

theorem Holds.index_exit {w : World} {a : Nat} {S : List Char} {m : Nat} (h : Holds w a S m)
    (i : Nat) (hi : S.length ≤ i) : operator_index w a i = .error .exit := by
  have hs := h.size_eq
  have h1 : i ≥ size w a := by omega
  simp [operator_index, h1]

/-- Well-formedness only depends on the object itself and on its block. -/
theorem Holds.congr {w w' : World} {j : Nat} {T : List Char} {k : Nat} (h : Holds w j T k)
    (ho : w'.objs j = w.objs j) (hn : w.next ≤ w'.next)
    (hb : ∀ b, (w.objs j).elements = .addr b 0 → w'.blocks b = w.blocks b) :
    Holds w' j T k := by
  rcases h with ⟨h1, h2, h3⟩ | ⟨b, h1, h2, h3, h4, h5, h6, h7⟩
  · exact Or.inl ⟨ho.trans h1, h2, h3⟩
  · have hbb := hb b (by rw [h1])
    exact Or.inr ⟨b, ho.trans h1, h2, h3, by omega, by rw [hbb]; exact h5, by rw [hbb]; exact h6,
      by rw [hbb]; exact h7⟩

/-! ## Frame of an operation on one object -/

theorem Frame.refl (w : World) (a : Nat) : Frame w w a :=
  ⟨fun _ _ => rfl, Nat.le_refl _, fun _ _ _ => rfl, Or.inl rfl⟩

theorem Frame.trans {w w1 w2 : World} {a : Nat} (h1 : Frame w w1 a) (h2 : Frame w1 w2 a) :
    Frame w w2 a := by
  obtain ⟨a1, a2, a3, a4⟩ := h1
  obtain ⟨b1, b2, b3, b4⟩ := h2
  refine ⟨fun j hj => (b1 j hj).trans (a1 j hj), by omega, ?_, ?_⟩
  · intro b hb hne
    rw [b3 b (by omega), a3 b hb hne]
    rcases a4 with e | ⟨b', hb', e⟩
    · rw [e]; exact hne
    · rw [e]; intro hc; injection hc with hc; omega
  · rcases b4 with e | ⟨b', hb', e⟩
    · rcases a4 with e' | ⟨b'', hb'', e'⟩
      · exact Or.inl (e.trans e')
      · exact Or.inr ⟨b'', hb'', e.trans e'⟩
    · exact Or.inr ⟨b', by omega, e⟩

/-- A separate well-formed object is untouched by an operation on `a`, and
stays separate from it. -/
theorem Frame.keep {w w' : World} {a j : Nat} {T : List Char} {k : Nat} (hf : Frame w w' a)
    (h : Holds w j T k) (hs : Separate w a j) : Holds w' j T k ∧ Separate w' a j := by
  obtain ⟨f1, f2, f3, f4⟩ := hf
  obtain ⟨hne, hsep⟩ := hs
  have hoj : w'.objs j = w.objs j := f1 j (Ne.symm hne)
  rcases h with ⟨h1, h2, h3⟩ | ⟨b, h1, h2, h3, h4, h5, h6, h7⟩
  · refine ⟨Or.inl ⟨hoj.trans h1, h2, h3⟩, hne, ?_⟩
    intro e
    rw [e, hoj, h1]
  · have hab : (w.objs a).elements ≠ .addr b 0 := by
      intro e
      have := hsep (by rw [e, h1])
      rw [e] at this
      exact Ptr.noConfusion this
    have hbb := f3 b h4 hab
    refine ⟨Or.inr ⟨b, hoj.trans h1, h2, h3, by omega, by rw [hbb]; exact h5,
      by rw [hbb]; exact h6, by rw [hbb]; exact h7⟩, hne, ?_⟩
    intro e
    rw [hoj, h1] at e
    rcases f4 with e' | ⟨b', hb', e'⟩
    · exact absurd (e'.symm.trans e) hab
    · rw [e'] at e; injection e with e; omega

/-! ## Reallocation -/

theorem alloc_n_move_spec {w : World} {a : Nat} {S : List Char} {m : Nat} (h : Holds w a S m)
    (n : Nat) (hS : S.length ≤ n) (hn : n ≤ max_size) (hr : n ≤ w.room) :
    ∃ w', alloc_n_move w a n = .ok w' ∧ Holds w' a S n ∧ Frame w w' a ∧
      w'.room + n = w.room + m := by
  have hal : allocate w n = .ok (.addr w.next 0, grab w n) := by simp [allocate, hn, hr]
  rcases h with ⟨ho, hS0, hm0⟩ | ⟨b, ho, hle, hm, hb, hl, hsz, hc⟩
  · subst hS0; subst hm0
    refine ⟨setObj (grab w n) a ⟨.addr w.next 0, .addr w.next 0, .addr w.next n⟩, ?_, ?_, ?_, ?_⟩
    · simp [alloc_n_move, hal, begin_, end_, ho, uninitialized_copy, diff_null,
        uninitialized_copy_n, free, Ptr.add, bind, Except.bind]
    · refine Or.inr ⟨w.next, by simp, by simp, hn, by simp, by simp, by simp, by simp⟩
    · refine ⟨fun j hj => by simp [Function.update_noteq hj], by simp, ?_, ?_⟩
      · intro b hb _
        have : b ≠ w.next := by omega
        simp [Function.update_noteq this]
      · exact Or.inr ⟨w.next, Nat.le_refl _, by simp⟩
    · simp; omega
  · have hbn : b ≠ w.next := by omega
    have hcp : uninitialized_copy (grab w n) (.addr b 0) (.addr b S.length) (.addr w.next 0)
        = .ok (.addr w.next S.length, fill (grab w n) w.next 0 S) := by
      unfold uninitialized_copy
      rw [diff_addr _ _ _ _ (Nat.zero_le _) (by omega), Nat.sub_zero,
        uninitialized_copy_n_spec S (grab w n) b 0 w.next 0 hbn]
      · simp
      · simp [Function.update_noteq hbn, hl]
      · simp [Function.update_noteq hbn]; omega
      · intro k hk; simp [Function.update_noteq hbn, hc k hk]
      · simp
      · simp; omega
    have hfr : free (fill (grab w n) w.next 0 S) a
        = .ok (release (fill (grab w n) w.next 0 S) b m) := by
      simp only [free, fill_objs, grab_objs, ho]
      rw [diff_addr _ _ _ _ (Nat.zero_le _) hm]
      simp [deallocate, Function.update_noteq hbn, hl, hsz]
    refine ⟨setObj (release (fill (grab w n) w.next 0 S) b m) a
      ⟨.addr w.next 0, .addr w.next S.length, .addr w.next n⟩, ?_, ?_, ?_, ?_⟩
    · simp [alloc_n_move, hal, begin_, end_, ho, hcp, hfr, Ptr.add, bind, Except.bind]
    · refine Or.inr ⟨w.next, by simp, hS, hn, by simp, ?_, ?_, ?_⟩
      · simp [Function.update_noteq hbn.symm]
      · simp [Function.update_noteq hbn.symm]
      · intro k hk
        simp [Function.update_noteq hbn.symm, hk]
    · refine ⟨fun j hj => by simp [Function.update_noteq hj], by simp, ?_, ?_⟩
      · intro b' hb' hne
        have h1 : b' ≠ w.next := by omega
        have h2 : b' ≠ b := by
          intro e; subst e; exact hne (by rw [ho])
        simp [Function.update_noteq h1, Function.update_noteq h2]
      · exact Or.inr ⟨w.next, Nat.le_refl _, by simp⟩
    · simp; omega

theorem construct_at_end_spec {w : World} {a : Nat} {S : List Char} {m : Nat}
    (h : Holds w a S m) (c : Char) (hlt : S.length < m) :
    ∃ w', construct_at_end w a c = .ok w' ∧ Holds w' a (S ++ [c]) m ∧ Frame w w' a ∧
      w'.room = w.room := by
  rcases h with ⟨_, hS0, hm0⟩ | ⟨b, ho, hle, hm, hb, hl, hsz, hc⟩
  · omega
  · have hlt2 : S.length < (w.blocks b).size := by omega
    refine ⟨setObj (setCell w b S.length c) a ⟨.addr b 0, .addr b (S.length + 1), .addr b m⟩,
      ?_, ?_, ?_, ?_⟩
    · simp [construct_at_end, ho, construct, hl, hlt2, Ptr.add, bind, Except.bind]
    · refine Or.inr ⟨b, by simp, by simp; omega, hm, by simpa using hb, by simpa using hl,
        by simpa using hsz, ?_⟩
      intro k hk
      simp only [List.length_append, List.length_singleton] at hk
      by_cases hk2 : k = S.length
      · subst hk2; simp
      · have hk3 : k < S.length := by omega
        simp [Function.update_noteq hk2, hc k hk3, List.getElem?_append_left hk3]
    · refine ⟨fun j hj => by simp [Function.update_noteq hj], by simp, ?_, Or.inl (by simp [ho])⟩
      intro b' _ hne
      have h2 : b' ≠ b := by
        intro e; subst e; exact hne (by rw [ho])
      simp [Function.update_noteq h2]
    · simp

theorem check_n_alloc_spec {w : World} {a : Nat} {S : List Char} {m : Nat}
    (h : Holds w a S m)
    (hr : S.length = m → max 1 (2 * S.length) ≤ max_size ∧ max 1 (2 * S.length) ≤ w.room) :
    ∃ w', check_n_alloc w a = .ok w' ∧
      Holds w' a S (if S.length = m then max 1 (2 * S.length) else m) ∧ Frame w w' a ∧
      w'.room + (if S.length = m then max 1 (2 * S.length) else m) = w.room + m := by
  have hs := h.size_eq
  have hcap := h.capacity_eq
  by_cases hfull : S.length = m
  · obtain ⟨hr1, hr2⟩ := hr hfull
    have hnc : (if size w a ≠ 0 then (2 * size w a) % SIZE_MOD else 1) = max 1 (2 * S.length) := by
      rw [hs]
      have := max_size_lt
      by_cases h0 : S.length = 0
      · simp [h0]
      · have h1 : 2 * S.length < SIZE_MOD := by
          have : 2 * S.length ≤ max 1 (2 * S.length) := le_max_right _ _
          omega
        rw [if_pos h0, Nat.mod_eq_of_lt h1]
        omega
    obtain ⟨w', e, hh, hf, hroom⟩ := alloc_n_move_spec h (max 1 (2 * S.length))
      (by have : 2 * S.length ≤ max 1 (2 * S.length) := le_max_right _ _; omega) hr1 hr2
    refine ⟨w', ?_, by rw [if_pos hfull]; exact hh, hf, by rw [if_pos hfull]; exact hroom⟩
    have : size w a = capacity w a := by omega
    simp only [check_n_alloc, this, if_true, reallocate]
    rw [← this, hnc]
    exact e
  · refine ⟨w, ?_, by rw [if_neg hfull]; exact h, Frame.refl w a, by rw [if_neg hfull]⟩
    have : size w a ≠ capacity w a := by omega
    simp [check_n_alloc, this]

theorem push_back_spec {w : World} {a : Nat} {S : List Char} {m : Nat}
    (h : Holds w a S m) (c : Char)
    (hr : S.length = m → max 1 (2 * S.length) ≤ max_size ∧ max 1 (2 * S.length) ≤ w.room) :
    ∃ w', push_back w a c = .ok w' ∧
      Holds w' a (S ++ [c]) (if S.length = m then max 1 (2 * S.length) else m) ∧ Frame w w' a ∧
      w'.room + (if S.length = m then max 1 (2 * S.length) else m) = w.room + m := by
  obtain ⟨w1, e1, h1, f1, r1⟩ := check_n_alloc_spec h hr
  have hlt : S.length < (if S.length = m then max 1 (2 * S.length) else m) := by
    have := h.le
    by_cases hfull : S.length = m
    · rw [if_pos hfull]
      have : 1 ≤ max 1 (2 * S.length) := le_max_left _ _
      have : 2 * S.length ≤ max 1 (2 * S.length) := le_max_right _ _
      omega
    · rw [if_neg hfull]; omega
  obtain ⟨w2, e2, h2, f2, r2⟩ := construct_at_end_spec h1 c hlt
  refine ⟨w2, ?_, h2, f1.trans f2, by rw [r2]; exact r1⟩
  simp [push_back, e1, e2, bind, Except.bind]

/-! ## Copy into fresh storage -/

theorem alloc_n_copy_range {w : World} {b o : Nat} {S : List Char} (h : RangeAt w b o S)
    (hr : S.length ≤ w.room) :
    alloc_n_copy w (.addr b o) (.addr b (o + S.length))
      = .ok ((.addr w.next 0, .addr w.next S.length), fill (grab w S.length) w.next 0 S) := by
  obtain ⟨hb, hl, hsz, hle, hc⟩ := h
  have hbn : b ≠ w.next := by omega
  have hd : Ptr.diff (.addr b (o + S.length)) (.addr b o) = S.length := by
    rw [diff_addr _ _ _ _ (by omega) (by omega)]; omega
  have hal : allocate w S.length = .ok (.addr w.next 0, grab w S.length) := by
    have : S.length ≤ max_size := by omega
    simp [allocate, this, hr]
  have hcp : uninitialized_copy_n S.length (grab w S.length) (.addr b o) (.addr w.next 0)
      = .ok (.addr w.next (0 + S.length), fill (grab w S.length) w.next 0 S) := by
    apply uninitialized_copy_n_spec S (grab w S.length) b o w.next 0 hbn
    · simp [Function.update_noteq hbn, hl]
    · simp [Function.update_noteq hbn]; omega
    · intro k hk; simp [Function.update_noteq hbn, hc k hk]
    · simp
    · simp
  simp [alloc_n_copy, uninitialized_copy, hd, hal, hcp, bind, Except.bind]

theorem alloc_n_copy_null (w : World) :
    alloc_n_copy w .null .null = .ok ((.addr w.next 0, .addr w.next 0), grab w 0) := by
  simp [alloc_n_copy, uninitialized_copy, diff_null, allocate, uninitialized_copy_n, bind,
    Except.bind]

/-- The copy made by `alloc_n_copy` of the characters of a well-formed object. -/
theorem alloc_n_copy_holds {w : World} {s : Nat} {S : List Char} {m : Nat} (h : Holds w s S m)
    (hr : S.length ≤ w.room) :
    alloc_n_copy w (w.objs s).elements (w.objs s).first_free
      = .ok ((.addr w.next 0, .addr w.next S.length), fill (grab w S.length) w.next 0 S) := by
  rcases h with ⟨ho, hS0, hm0⟩ | ⟨b, ho, hle, hm, hb, hl, hsz, hc⟩
  · subst hS0
    rw [ho, alloc_n_copy_null, fill_nil]
    rfl
  · rw [ho]
    have hR : RangeAt w b 0 S := ⟨hb, hl, by omega, by omega, by simpa using hc⟩
    have := alloc_n_copy_range hR hr
    simpa using this

/-- The block written by `alloc_n_copy` makes a well-formed object of exactly
the copied length. -/
theorem holds_of_copy (w : World) (a : Nat) (S : List Char) (hS : S.length ≤ max_size) :
    Holds (setObj (fill (grab w S.length) w.next 0 S) a
      ⟨.addr w.next 0, .addr w.next S.length, .addr w.next S.length⟩) a S S.length := by
  refine Or.inr ⟨w.next, by simp, Nat.le_refl _, hS, by simp, by simp, by simp, ?_⟩
  intro k hk
  simp [hk]

/-- Other well-formed objects are not affected by the copy. -/
theorem holds_after_copy {w : World} {j : Nat} {T : List Char} {k : Nat} (h : Holds w j T k)
    (a : Nat) (S : List Char) (s : String) (hne : j ≠ a) :
    Holds (setObj (fill (grab w S.length) w.next 0 S) a s) j T k := by
  apply h.congr
  · simp [Function.update_noteq hne]
  · simp
  · intro b hb
    rcases h with ⟨h1, _, _⟩ | ⟨b', h1, _, _, h4, _⟩
    · rw [h1] at hb; exact Ptr.noConfusion hb
    · rw [h1] at hb
      injection hb with hb
      have : b ≠ w.next := by omega
      simp [Function.update_noteq this]

theorem scan_nul_spec (S : List Char) :
    ∀ (w : World) (b o fuel : Nat), (w.blocks b).live = true → o + S.length < (w.blocks b).size →
      (∀ k, k < S.length → (w.blocks b).cells (o + k) = S[k]?) →
      (w.blocks b).cells (o + S.length) = some (Char.ofNat 0) → (∀ c ∈ S, c ≠ Char.ofNat 0) →
      S.length < fuel → scan_nul fuel w (.addr b o) = .ok (.addr b (o + S.length)) := by
  induction S with
  | nil =>
    intro w b o fuel hl hsz _ h0 _ hf
    obtain ⟨f, rfl⟩ : ∃ f, fuel = f + 1 := ⟨fuel - 1, by simp at hf; omega⟩
    simp only [List.length_nil, Nat.add_zero] at hsz h0 ⊢
    simp [scan_nul, load, hl, hsz, h0, bind, Except.bind]
  | cons c S ih =>
    intro w b o fuel hl hsz hc h0 hnz hf
    simp only [List.length_cons] at hsz h0 hf
    obtain ⟨f, rfl⟩ : ∃ f, fuel = f + 1 := ⟨fuel - 1, by omega⟩
    have hc0 := hc 0 (by simp)
    simp only [Nat.add_zero, List.getElem?_cons_zero] at hc0
    have hcne : c ≠ Char.ofNat 0 := hnz c (by simp)
    have hlt : o < (w.blocks b).size := by omega
    have ih' := ih w b (o + 1) f hl (by omega)
      (fun k hk => by
        have := hc (k + 1) (by simp; omega)
        rw [show o + 1 + k = o + (k + 1) by omega, this]; simp)
      (by rw [show o + 1 + S.length = o + (S.length + 1) by omega]; exact h0)
      (fun c' hc' => hnz c' (by simp [hc'])) (by omega)
    simp only [scan_nul, load, hl, hlt, hc0, bind, Except.bind, and_self, if_true, if_neg hcne,
      Ptr.add, ih', List.length_cons]
    congr 2
    omega

/-- C1: for every NUL-free character sequence `S` stored as a C string, the
object built by `String(const char*)` has length `|S|` and capacity `|S|`, and
`operator[]` at every index `i < |S|` yields `S[i]` (the allocator having room
for `|S|` slots). -/
theorem C1_from_cstr (w : World) (this : Nat) (s : Ptr) (S : List Char) (hs : CStr w s S)
    (hroom : S.length ≤ w.room) :
    ∃ w', String_cstr w this s = .ok w' ∧ length w' this = S.length ∧
      capacity w' this = S.length ∧
      (∀ i (hi : i < S.length), read w' this i = .ok (S.get ⟨i, hi⟩)) ∧
      Holds w' this S S.length := by
  obtain ⟨b, o, rfl, hR, hlt, h0, hnz⟩ := hs
  have hscan := scan_nul_spec S w b o (slots_from w (.addr b o)) hR.2.1 hlt hR.2.2.2.2 h0 hnz
    (by simp only [slots_from]; omega)
  have hS : S.length ≤ max_size := by have := hR.2.2.1; omega
  have hH := holds_of_copy w this S hS
  refine ⟨_, ?_, hH.size_eq, hH.capacity_eq, hH.read_eq, hH⟩
  simp [String_cstr, hscan, range_initializer, alloc_n_copy_range hR hroom, bind, Except.bind]

/-! ## The sample memory -/

theorem sample_cstr : CStr sample (.addr 0 0) ['h', 'i'] := by
  refine ⟨0, 0, rfl, ⟨by decide, by decide, by decide, by decide, by decide⟩, by decide,
    by decide, by decide⟩

theorem sample_holds0 : Holds sample 0 ['h', 'i'] 2 :=
  Or.inr ⟨1, by decide, by decide, by decide, by decide, by decide, by decide, by decide⟩

theorem sample_holds1 : Holds sample 1 ['b', 'y', 'e'] 4 :=
  Or.inr ⟨2, by decide, by decide, by decide, by decide, by decide, by decide, by decide⟩

theorem sample_holds2 : Holds sample 2 [] 0 :=
  Or.inl ⟨by decide, rfl, rfl⟩

/-- C1 at the C string "hi" of the sample memory, built at address 5. -/
theorem C1_from_cstr_witness :
    CStr sample (.addr 0 0) ['h', 'i'] ∧ 2 ≤ sample.room ∧
    ∃ w', String_cstr sample 5 (.addr 0 0) = .ok w' ∧ length w' 5 = 2 ∧ capacity w' 5 = 2 ∧
      (∀ i (hi : i < 2), read w' 5 i = .ok (['h', 'i'].get ⟨i, hi⟩)) ∧
      Holds w' 5 ['h', 'i'] 2 :=
  ⟨sample_cstr, by decide, C1_from_cstr sample 5 (.addr 0 0) ['h', 'i'] sample_cstr (by decide)⟩

/-- C2: `push_back(c)` on a well-formed object leaves the old content followed
by `c`, the length increased by exactly 1, and the capacity `max(1, 2 * old
length)` when the old length equals the old capacity and unchanged otherwise
(the allocator being able to satisfy the growth request, when there is one). -/
theorem C2_push_back (w : World) (a : Nat) (S : List Char) (m : Nat) (c : Char)
    (h : Holds w a S m)
    (hroom : S.length = m → max 1 (2 * S.length) ≤ max_size ∧ max 1 (2 * S.length) ≤ w.room) :
    ∃ w', push_back w a c = .ok w' ∧
      length w' a = length w a + 1 ∧
      capacity w' a
        = (if length w a = capacity w a then max 1 (2 * length w a) else capacity w a) ∧
      (∀ i, i < length w a → read w' a i = read w a i) ∧
      read w' a (length w a) = .ok c ∧
      Holds w' a (S ++ [c]) (capacity w' a) := by
  obtain ⟨w', e, hh, _, _⟩ := push_back_spec h c hroom
  have hl : length w a = S.length := h.size_eq
  have hc : capacity w a = m := h.capacity_eq
  have hc' := hh.capacity_eq
  refine ⟨w', e, ?_, ?_, ?_, ?_, ?_⟩
  · rw [hl]; exact hh.size_eq.trans (by simp)
  · rw [hl, hc]; exact hc'
  · intro i hi
    rw [hl] at hi
    rw [h.read_eq i hi, hh.read_eq i (by simp; omega)]
    simp [List.getElem_append_left hi]
  · rw [hl, hh.read_eq S.length (by simp)]
    simp
  · rw [hc']; exact hh

/-- C2 at the full object "hi" (capacity 2) and at the object "bye" (capacity
4) of the sample memory. -/
theorem C2_push_back_witness :
    (∃ w', push_back sample 0 'x' = .ok w' ∧ length w' 0 = length sample 0 + 1 ∧
      capacity w' 0 = (if length sample 0 = capacity sample 0 then max 1 (2 * length sample 0)
        else capacity sample 0) ∧
      (∀ i, i < length sample 0 → read w' 0 i = read sample 0 i) ∧
      read w' 0 (length sample 0) = .ok 'x' ∧
      Holds w' 0 (['h', 'i'] ++ ['x']) (capacity w' 0)) ∧
    length sample 0 = 2 ∧ capacity sample 0 = 2 :=
  ⟨C2_push_back sample 0 ['h', 'i'] 2 'x' sample_holds0 (fun _ => ⟨by decide, by decide⟩),
    sample_holds0.size_eq, sample_holds0.capacity_eq⟩

/-! ## Loops that append the characters of another block -/

theorem Holds.range {w : World} {s : Nat} {S : List Char} {m : Nat} {b : Nat}
    (h : Holds w s S m) (hb : (w.objs s).elements = .addr b 0) : RangeAt w b 0 S := by
  rcases h with ⟨ho, _, _⟩ | ⟨b', ho, hle, hm, hb', hl, hsz, hc⟩
  · rw [ho] at hb; exact Ptr.noConfusion hb
  · rw [ho] at hb
    injection hb with hb
    subst hb
    exact ⟨hb', hl, by omega, by omega, by simpa using hc⟩

/-- One step of a loop over a foreign block: the first character is read, and
after an operation on `r` the rest of the range is still there. -/
theorem RangeAt.step {w w1 : World} {r b o : Nat} {c : Char} {cs : List Char}
    (hR : RangeAt w b o (c :: cs)) (hne : (w.objs r).elements ≠ .addr b 0)
    (hf : Frame w w1 r) :
    load w (.addr b o) = .ok c ∧ RangeAt w1 b (o + 1) cs ∧ (w1.objs r).elements ≠ .addr b 0 := by
  obtain ⟨hb, hl, hsz, hle, hc⟩ := hR
  obtain ⟨_, f2, f3, f4⟩ := hf
  simp only [List.length_cons] at hle
  have hc0 := hc 0 (by simp)
  simp only [Nat.add_zero, List.getElem?_cons_zero] at hc0
  have hlt : o < (w.blocks b).size := by omega
  have hbb := f3 b hb hne
  refine ⟨by simp [load, hl, hlt, hc0], ⟨by omega, by rw [hbb]; exact hl, by rw [hbb]; exact hsz,
    by rw [hbb]; omega, ?_⟩, ?_⟩
  · intro k hk
    have := hc (k + 1) (by simp; omega)
    rw [hbb, show o + 1 + k = o + (k + 1) by omega, this]
    simp
  · rcases f4 with e | ⟨b', hb', e⟩
    · rw [e]; exact hne
    · rw [e]; intro hc; injection hc with hc; omega

theorem construct_loop (r b : Nat) (cs : List Char) :
    ∀ (o : Nat) (w : World) (R : List Char) (n : Nat), Holds w r R n → RangeAt w b o cs →
      (w.objs r).elements ≠ .addr b 0 → R.length + cs.length ≤ n →
      ∃ w', for_each_n cs.length w (.addr b o) (fun w c => construct_at_end w r c) = .ok w' ∧
        Holds w' r (R ++ cs) n ∧ Frame w w' r ∧ w'.room = w.room := by
  induction cs with
  | nil =>
    intro o w R n h _ _ _
    exact ⟨w, by simp [for_each_n], by simpa using h, Frame.refl w r, rfl⟩
  | cons c cs ih =>
    intro o w R n h hR hne hle
    simp only [List.length_cons] at hle
    obtain ⟨w1, e1, h1, f1, r1⟩ := construct_at_end_spec h c (by omega)
    obtain ⟨hload, hR1, hne1⟩ := hR.step hne f1
    obtain ⟨w2, e2, h2, f2, r2⟩ := ih (o + 1) w1 (R ++ [c]) n h1 hR1 hne1 (by simp; omega)
    refine ⟨w2, ?_, by simpa using h2, f1.trans f2, r2.trans r1⟩
    simp [for_each_n, hload, e1, e2, Ptr.add, bind, Except.bind]

/-- The loop of the concatenating operators: the characters of the object at
`s` are constructed at the end of the object at `r`, which has the slots. -/
theorem construct_from {w : World} {r s : Nat} {R S : List Char} {n m : Nat}
    (hr : Holds w r R n) (hs : Holds w s S m) (hsep : Separate w r s)
    (hle : R.length + S.length ≤ n) :
    ∃ w', for_each w (begin_ w s) (end_ w s) (fun w c => construct_at_end w r c) = .ok w' ∧
      Holds w' r (R ++ S) n ∧ Frame w w' r ∧ w'.room = w.room := by
  have hsz := hs.size_eq
  simp only [size] at hsz
  simp only [for_each, begin_, end_, hsz]
  rcases hs with ⟨ho, hS0, _⟩ | ⟨b, ho, hle', hm, hb, hl, hsz', hc⟩
  · subst hS0
    exact ⟨w, by simp [for_each_n], by simpa using hr, Frame.refl w r, rfl⟩
  · have hR : RangeAt w b 0 S :=
      Holds.range (Or.inr ⟨b, ho, hle', hm, hb, hl, hsz', hc⟩ : Holds w s S m) (by rw [ho])
    have hne : (w.objs r).elements ≠ .addr b 0 := by
      intro e
      have := hsep.2 (by rw [e, ho])
      rw [e] at this
      exact Ptr.noConfusion this
    rw [ho]
    exact construct_loop r b S 0 w R n hr hR hne hle

/-! ## reserve and the constructors -/

theorem reserve_spec {w : World} {a : Nat} {S : List Char} {m : Nat} (h : Holds w a S m)
    (n : Nat) (hr : m < n → n ≤ max_size ∧ n ≤ w.room) :
    ∃ w', reserve w a n = .ok w' ∧ Holds w' a S (max m n) ∧ Frame w w' a ∧
      (n ≤ m → w' = w) ∧ w'.room + max m n = w.room + m := by
  have hcap := h.capacity_eq
  by_cases hle : n ≤ m
  · refine ⟨w, by simp [reserve, hcap, hle], by rw [max_eq_left hle]; exact h, Frame.refl w a,
      fun _ => rfl, by rw [max_eq_left hle]⟩
  · have hlt : m < n := by omega
    obtain ⟨hr1, hr2⟩ := hr hlt
    have hSn : S.length ≤ n := by have := h.le; omega
    obtain ⟨w', e, hh, hf, hroom⟩ := alloc_n_move_spec h n hSn hr1 hr2
    have hmax : max m n = n := max_eq_right (by omega)
    refine ⟨w', by simp [reserve, hcap, hle, e], by rw [hmax]; exact hh, hf,
      fun h' => absurd h' hle, by rw [hmax]; exact hroom⟩

/-- An object whose cursors were set to null is the empty `String`; the other
objects are as before. -/
theorem holds_setObj_null (w : World) (r : Nat) :
    Holds (setObj w r ⟨.null, .null, .null⟩) r [] 0 :=
  Or.inl ⟨by simp, rfl, rfl⟩

theorem holds_setObj_other {w : World} {j : Nat} {T : List Char} {k : Nat} (h : Holds w j T k)
    (r : Nat) (s : String) (hne : j ≠ r) : Holds (setObj w r s) j T k :=
  h.congr (by simp [Function.update_noteq hne]) (by simp) (fun _ _ => by simp)

theorem separate_of_null {w : World} {r j : Nat} (hne : r ≠ j)
    (h : (w.objs r).elements = .null) : Separate w r j :=
  ⟨hne, fun _ => h⟩

/-- C3: `operator+(a, b)` builds, in the object `ret` it returns, a `String`
whose length and capacity are both `a.length + b.length`, whose character at
`i` is `a[i]` for `i < a.length` and at `a.length + j` is `b[j]` for
`j < b.length`; `a` and `b` are not modified (the allocator being able to
satisfy the one request of `a.length + b.length` slots). -/
theorem C3_operator_plus (w : World) (ret a b : Nat) (S1 S2 : List Char) (m1 m2 : Nat)
    (ha : Holds w a S1 m1) (hb : Holds w b S2 m2) (hra : ret ≠ a) (hrb : ret ≠ b)
    (hroom : S1.length + S2.length ≤ max_size ∧ S1.length + S2.length ≤ w.room) :
    ∃ w', operator_plus w ret a b = .ok w' ∧
      length w' ret = length w a + length w b ∧
      capacity w' ret = length w a + length w b ∧
      (∀ i, i < length w a → read w' ret i = read w a i) ∧
      (∀ j, j < length w b → read w' ret (length w a + j) = read w b j) ∧
      (w'.objs a = w.objs a ∧ Holds w' a S1 m1) ∧
      (w'.objs b = w.objs b ∧ Holds w' b S2 m2) ∧
      Holds w' ret (S1 ++ S2) (S1.length + S2.length) := by
  have hla : length w a = S1.length := ha.size_eq
  have hlb : length w b = S2.length := hb.size_eq
  have hmod : (size w a + size w b) % SIZE_MOD = S1.length + S2.length := by
    have := max_size_lt
    rw [ha.size_eq, hb.size_eq, Nat.mod_eq_of_lt (by omega)]
  -- the constructor `String(n)`
  have h0 := holds_setObj_null w ret
  have ha0 := holds_setObj_other ha ret ⟨.null, .null, .null⟩ (Ne.symm hra)
  have hb0 := holds_setObj_other hb ret ⟨.null, .null, .null⟩ (Ne.symm hrb)
  have sa0 : Separate (setObj w ret ⟨.null, .null, .null⟩) ret a :=
    separate_of_null hra (by simp)
  have sb0 : Separate (setObj w ret ⟨.null, .null, .null⟩) ret b :=
    separate_of_null hrb (by simp)
  obtain ⟨w1, e1, h1, f1, _, _⟩ := reserve_spec h0 (S1.length + S2.length)
    (fun _ => by simpa using hroom)
  rw [Nat.zero_max] at h1
  obtain ⟨ha1, sa1⟩ := f1.keep ha0 sa0
  obtain ⟨hb1, sb1⟩ := f1.keep hb0 sb0
  -- the two loops
  obtain ⟨w2, e2, h2, f2, _⟩ := construct_from h1 ha1 sa1 (by simp)
  obtain ⟨ha2, _⟩ := f2.keep ha1 sa1
  obtain ⟨hb2, sb2⟩ := f2.keep hb1 sb1
  obtain ⟨w3, e3, h3, f3, _⟩ := construct_from h2 hb2 sb2 (by simp)
  obtain ⟨ha3, _⟩ := f3.keep ha2 (f2.keep ha1 sa1).2
  obtain ⟨hb3, _⟩ := f3.keep hb2 sb2
  simp only [List.nil_append] at h3
  have hoa : w3.objs a = w.objs a := by
    rw [f3.1 a (Ne.symm hra), f2.1 a (Ne.symm hra), f1.1 a (Ne.symm hra)]
    simp [Function.update_noteq (Ne.symm hra)]
  have hob : w3.objs b = w.objs b := by
    rw [f3.1 b (Ne.symm hrb), f2.1 b (Ne.symm hrb), f1.1 b (Ne.symm hrb)]
    simp [Function.update_noteq (Ne.symm hrb)]
  refine ⟨w3, ?_, ?_, ?_, ?_, ?_, ⟨hoa, ha3⟩, ⟨hob, hb3⟩, h3⟩
  · simp only [operator_plus, String_n, hmod, e1, bind, Except.bind]
    rw [e2]
    simp only []
    rw [e3]
  · rw [hla, hlb]; exact h3.size_eq.trans (by simp)
  · rw [hla, hlb]; exact h3.capacity_eq
  · intro i hi
    rw [hla] at hi
    rw [ha.read_eq i hi, h3.read_eq i (by simp; omega)]
    simp [List.getElem_append_left hi]
  · intro j hj
    rw [hlb] at hj
    rw [hla, hb.read_eq j hj, h3.read_eq (S1.length + j) (by simp; omega)]
    simp [List.getElem_append_right]

/-- C3 at the objects "hi" and "bye" of the sample memory, the sum built at
address 5. -/
theorem C3_operator_plus_witness :
    ∃ w', operator_plus sample 5 0 1 = .ok w' ∧
      length w' 5 = length sample 0 + length sample 1 ∧
      capacity w' 5 = length sample 0 + length sample 1 ∧
      (∀ i, i < length sample 0 → read w' 5 i = read sample 0 i) ∧
      (∀ j, j < length sample 1 → read w' 5 (length sample 0 + j) = read sample 1 j) ∧
      (w'.objs 0 = sample.objs 0 ∧ Holds w' 0 ['h', 'i'] 2) ∧
      (w'.objs 1 = sample.objs 1 ∧ Holds w' 1 ['b', 'y', 'e'] 4) ∧
      Holds w' 5 (['h', 'i'] ++ ['b', 'y', 'e']) (2 + 3) :=
  C3_operator_plus sample 5 0 1 ['h', 'i'] ['b', 'y', 'e'] 2 4 sample_holds0 sample_holds1
    (by decide) (by decide) ⟨by decide, by decide⟩

/-- C4: on a well-formed object `operator[](i)` ends in `exit(-1)` exactly
when `i >= length`, returns a reference exactly when `i < length`, and that
reference then refers to the `i`-th character; index 3 on an object of length
3 is fatal. -/
theorem C4_operator_index (w : World) (a : Nat) (S : List Char) (m : Nat) (i : Nat)
    (h : Holds w a S m) :
    (operator_index w a i = .error .exit ↔ length w a ≤ i) ∧
    ((∃ p, operator_index w a i = .ok p) ↔ i < length w a) ∧
    (∀ hi : i < length w a, ∃ p, operator_index w a i = .ok p ∧
      load w p = .ok (S.get ⟨i, by rw [← h.size_eq]; exact hi⟩)) ∧
    (length w a = 3 → operator_index w a 3 = .error .exit) := by
  have hs : length w a = S.length := h.size_eq
  refine ⟨?_, ?_, ?_, ?_⟩
  · by_cases hi : size w a ≤ i
    · simp [operator_index, length, hi]
    · simp [operator_index, length, hi]
  · by_cases hi : size w a ≤ i
    · simp [operator_index, length, hi]
    · simp only [operator_index, length, ge_iff_le, hi, if_false]
      exact ⟨fun _ => by omega, fun _ => ⟨_, rfl⟩⟩
  · intro hi
    have hi' : i < S.length := by omega
    have hr := h.read_eq i hi'
    have hn : ¬ size w a ≤ i := by simp only [length] at hi; omega
    simp only [read, operator_index, ge_iff_le, hn, if_false, bind, Except.bind] at hr
    exact ⟨_, by simp [operator_index, hn], hr⟩
  · intro h3
    simp only [length] at h3
    simp [operator_index, h3]

/-- C4 at the object "bye" of the sample memory and index 3. -/
theorem C4_operator_index_witness :
    (operator_index sample 1 3 = .error .exit ↔ length sample 1 ≤ 3) ∧
    ((∃ p, operator_index sample 1 3 = .ok p) ↔ 3 < length sample 1) ∧
    (∀ hi : 3 < length sample 1, ∃ p, operator_index sample 1 3 = .ok p ∧
      load sample p = .ok (['b', 'y', 'e'].get ⟨3, by rw [← sample_holds1.size_eq]; exact hi⟩)) ∧
    (length sample 1 = 3 → operator_index sample 1 3 = .error .exit) :=
  C4_operator_index sample 1 ['b', 'y', 'e'] 4 3 sample_holds1

/-! ## Equality -/

theorem RangeAt.tail {w : World} {b o : Nat} {c : Char} {cs : List Char}
    (hR : RangeAt w b o (c :: cs)) : load w (.addr b o) = .ok c ∧ RangeAt w b (o + 1) cs := by
  obtain ⟨hb, hl, hsz, hle, hc⟩ := hR
  simp only [List.length_cons] at hle
  have hc0 := hc 0 (by simp)
  simp only [Nat.add_zero, List.getElem?_cons_zero] at hc0
  have hlt : o < (w.blocks b).size := by omega
  refine ⟨by simp [load, hl, hlt, hc0], hb, hl, hsz, by omega, ?_⟩
  intro k hk
  have := hc (k + 1) (by simp; omega)
  rw [show o + 1 + k = o + (k + 1) by omega, this]
  simp

theorem equal_n_spec (S : List Char) :
    ∀ (T : List Char) (w : World) (b1 o1 b2 o2 : Nat), S.length = T.length →
      RangeAt w b1 o1 S → RangeAt w b2 o2 T →
      equal_n S.length w (.addr b1 o1) (.addr b2 o2) = .ok (decide (S = T)) := by
  induction S with
  | nil =>
    intro T w b1 o1 b2 o2 hlen _ _
    have : T = [] := List.length_eq_zero.mp hlen.symm
    subst this
    simp [equal_n]
  | cons c S ih =>
    intro T w b1 o1 b2 o2 hlen h1 h2
    cases T with
    | nil => simp at hlen
    | cons d T =>
      simp only [List.length_cons, Nat.add_right_cancel_iff] at hlen
      obtain ⟨l1, t1⟩ := h1.tail
      obtain ⟨l2, t2⟩ := h2.tail
      simp only [List.length_cons, equal_n, l1, l2, bind, Except.bind, Ptr.add]
      by_cases hcd : c = d
      · subst hcd
        simp [ih T w b1 (o1 + 1) b2 (o2 + 1) hlen t1 t2]
      · simp [hcd]

theorem operator_eq_spec {w : World} {a b : Nat} {S T : List Char} {m k : Nat}
    (ha : Holds w a S m) (hb : Holds w b T k) :
    operator_eq w a b = .ok (decide (S = T)) := by
  have hsa := ha.size_eq
  have hsb := hb.size_eq
  by_cases hlen : S.length = T.length
  · have hsz : size w a = size w b := by omega
    simp only [operator_eq, hsz, if_true, equal, begin_, end_]
    have hd : Ptr.diff (w.objs a).first_free (w.objs a).elements = S.length := hsa
    rw [hd]
    by_cases h0 : S.length = 0
    · have hS : S = [] := List.length_eq_zero.mp h0
      have hT : T = [] := List.length_eq_zero.mp (by omega)
      subst hS; subst hT
      simp [equal_n]
    · rcases ha with ⟨_, hS0, _⟩ | ⟨ba, hoa, ha'⟩
      · subst hS0; simp at h0
      · rcases hb with ⟨_, hT0, _⟩ | ⟨bb, hob, hb'⟩
        · subst hT0; exact absurd hlen h0
        · have hRa : RangeAt w ba 0 S :=
            Holds.range (Or.inr ⟨ba, hoa, ha'⟩ : Holds w a S m) (by rw [hoa])
          have hRb : RangeAt w bb 0 T :=
            Holds.range (Or.inr ⟨bb, hob, hb'⟩ : Holds w b T k) (by rw [hob])
          rw [hoa, hob]
          exact equal_n_spec S T w ba 0 bb 0 hlen hRa hRb
  · have hsz : size w a ≠ size w b := by omega
    have hne : S ≠ T := fun e => hlen (by rw [e])
    simp [operator_eq, hsz, hne]

theorem Holds.same_view {w w' : World} {a : Nat} {S : List Char} {m : Nat} (h : Holds w a S m)
    (h' : Holds w' a S m) : SameView w w' a := by
  refine ⟨h'.size_eq.trans h.size_eq.symm, h'.capacity_eq.trans h.capacity_eq.symm, ?_⟩
  intro i
  by_cases hi : i < S.length
  · rw [h.read_eq i hi, h'.read_eq i hi]
  · simp [read, h.index_exit i (by omega), h'.index_exit i (by omega), bind, Except.bind]

/-! ## What an operation that returned has done -/

theorem alloc_n_move_fail (w : World) (a n : Nat) (h : ¬ (n ≤ max_size ∧ n ≤ w.room)) :
    alloc_n_move w a n = .error (.bad_alloc w) := by
  simp [alloc_n_move, allocate, h, bind, Except.bind]

theorem new_cap_eq {w : World} {a : Nat} {S : List Char} {m : Nat} (h : Holds w a S m) :
    (if size w a ≠ 0 then (2 * size w a) % SIZE_MOD else 1) = max 1 (2 * S.length) := by
  rw [h.size_eq]
  have := max_size_lt
  have := h.le
  have hm : max_size + max_size < SIZE_MOD := by unfold max_size SIZE_MOD; norm_num
  by_cases h0 : S.length = 0
  · simp [h0]
  · rw [if_pos h0, Nat.mod_eq_of_lt (by omega)]
    omega

theorem push_back_ok {w w' : World} {a : Nat} {S : List Char} {m : Nat} {c : Char}
    (h : Holds w a S m) (e : push_back w a c = .ok w') :
    Holds w' a (S ++ [c]) (if S.length = m then max 1 (2 * S.length) else m) ∧ Frame w w' a := by
  by_cases hr : S.length = m → max 1 (2 * S.length) ≤ max_size ∧ max 1 (2 * S.length) ≤ w.room
  · obtain ⟨w'', e', hh, hf, _⟩ := push_back_spec h c hr
    rw [e] at e'
    injection e' with e'
    subst e'
    exact ⟨hh, hf⟩
  · exfalso
    simp only [Classical.not_imp] at hr
    obtain ⟨hfull, hno⟩ := hr
    have hsz : size w a = capacity w a := by rw [h.size_eq, h.capacity_eq, hfull]
    have : push_back w a c = .error (.bad_alloc w) := by
      simp only [push_back, check_n_alloc, hsz, if_true, reallocate]
      rw [← hsz, new_cap_eq h, alloc_n_move_fail w a _ hno]
      rfl
    rw [this] at e
    exact Except.noConfusion e

theorem plus_assign_eq (w : World) (a s : Nat) :
    operator_plus_assign w a s
      = for_each w (begin_ w s) (end_ w s) (fun w c => push_back w a c) := rfl

theorem push_loop_ok (a : Nat) :
    ∀ (n : Nat) (p : Ptr) (w w' : World) (S : List Char) (m : Nat), Holds w a S m →
      for_each_n n w p (fun w c => push_back w a c) = .ok w' →
      Frame w w' a ∧ ∃ S' m', Holds w' a S' m' := by
  intro n
  induction n with
  | zero =>
    intro p w w' S m h e
    simp only [for_each_n] at e
    injection e with e
    subst e
    exact ⟨Frame.refl w a, S, m, h⟩
  | succ n ih =>
    intro p w w' S m h e
    simp only [for_each_n, bind, Except.bind] at e
    cases hl : load w p with
    | error f => rw [hl] at e; exact Except.noConfusion e
    | ok c =>
      rw [hl] at e
      simp only [] at e
      cases hp : push_back w a c with
      | error f => rw [hp] at e; exact Except.noConfusion e
      | ok w1 =>
        rw [hp] at e
        simp only [] at e
        obtain ⟨h1, f1⟩ := push_back_ok h hp
        obtain ⟨f2, hh⟩ := ih _ w1 w' _ _ h1 e
        exact ⟨f1.trans f2, hh⟩

theorem store_spec {w : World} {a : Nat} {S : List Char} {m : Nat} (h : Holds w a S m)
    (i : Nat) (hi : i < S.length) (x : Char) :
    ∃ p w', operator_index w a i = .ok p ∧ store w p x = .ok w' ∧ Holds w' a (S.set i x) m ∧
      Frame w w' a ∧ w'.room = w.room := by
  have hs := h.size_eq
  rcases h with ⟨_, hS0, _⟩ | ⟨b, ho, hle, hm, hb, hl, hsz, hc⟩
  · subst hS0; simp at hi
  · have h1 : ¬ i ≥ size w a := by omega
    have h2 : i < (w.blocks b).size := by omega
    refine ⟨.addr b i, setCell w b i x, by simp [operator_index, h1, ho, Ptr.add],
      by simp [store, hl, h2], ?_, ?_, rfl⟩
    · refine Or.inr ⟨b, by simpa using ho, by simpa using hle, hm, by simpa using hb,
        by simpa using hl, by simpa using hsz, ?_⟩
      intro k hk
      simp only [List.length_set] at hk
      by_cases hki : k = i
      · subst hki; simp [hk]
      · simp [Function.update_noteq hki, hc k hk, List.getElem?_set_ne (Ne.symm hki)]
    · refine ⟨fun j _ => by simp, by simp, ?_, Or.inl (by simp)⟩
      intro b' _ hne
      have h2 : b' ≠ b := by
        intro e; subst e; exact hne (by rw [ho])
      simp [Function.update_noteq h2]

/-! ## Copy construction -/

theorem separate_after_copy {w : World} {j : Nat} {T : List Char} {k : Nat} (h : Holds w j T k)
    (a : Nat) (S : List Char) (p q : Ptr) (hne : j ≠ a) :
    Separate (setObj (fill (grab w S.length) w.next 0 S) a ⟨.addr w.next 0, p, q⟩) j a := by
  refine ⟨hne, ?_⟩
  intro e
  simp only [setObj_objs, fill_objs, grab_objs, Function.update_noteq hne,
    Function.update_same] at e ⊢
  rcases h with ⟨h1, _, _⟩ | ⟨b, h1, _, _, h4, _⟩
  · rw [h1]
  · rw [h1] at e
    injection e with e
    omega

theorem String_copy_spec {w : World} {s : Nat} {S : List Char} {m : Nat} (h : Holds w s S m)
    (this : Nat) (hr : S.length ≤ w.room) :
    String_copy w this s = .ok (setObj (fill (grab w S.length) w.next 0 S) this
      ⟨.addr w.next 0, .addr w.next S.length, .addr w.next S.length⟩) := by
  simp [String_copy, range_initializer, alloc_n_copy_holds h hr, bind, Except.bind]

/-- C5: copy-constructing `b2` from a well-formed `b` gives `b2 == b` with
`b2.length == b2.capacity == b.length` and leaves `b` as it was; and whatever
`push_back`, write through `operator[]` or `+=` is then done on `b`, the
length, the capacity and every character of `b2` stay the same. -/
theorem C5_copy_isolated (w : World) (b2 b : Nat) (S : List Char) (m : Nat)
    (hb : Holds w b S m) (hne : b2 ≠ b) (hroom : S.length ≤ w.room) :
    ∃ w1, String_copy w b2 b = .ok w1 ∧
      operator_eq w1 b2 b = .ok true ∧
      length w1 b2 = length w b ∧ capacity w1 b2 = length w b ∧
      Holds w1 b2 S S.length ∧
      (w1.objs b = w.objs b ∧ Holds w1 b S m ∧ SameView w w1 b) ∧
      (∀ c w2, push_back w1 b c = .ok w2 → SameView w1 w2 b2) ∧
      (∀ i p x w2, operator_index w1 b i = .ok p → store w1 p x = .ok w2 →
        SameView w1 w2 b2) ∧
      (∀ s w2, operator_plus_assign w1 b s = .ok w2 → SameView w1 w2 b2) := by
  have hS : S.length ≤ max_size := by have := hb.le; omega
  have h2 := holds_of_copy w b2 S hS
  have h1 := holds_after_copy hb b2 S
    ⟨.addr w.next 0, .addr w.next S.length, .addr w.next S.length⟩ (Ne.symm hne)
  have hsep := separate_after_copy hb b2 S (.addr w.next S.length) (.addr w.next S.length)
    (Ne.symm hne)
  refine ⟨_, String_copy_spec hb b2 hroom, ?_, ?_, ?_, h2, ⟨?_, h1, hb.same_view h1⟩, ?_, ?_, ?_⟩
  · rw [operator_eq_spec h2 h1]; simp
  · exact h2.size_eq.trans hb.size_eq.symm
  · exact h2.capacity_eq.trans hb.size_eq.symm
  · simp [Function.update_noteq (Ne.symm hne)]
  · intro c w2 e
    obtain ⟨_, f⟩ := push_back_ok h1 e
    exact h2.same_view (f.keep h2 hsep).1
  · intro i p x w2 e1 e2
    have hi : i < S.length := by
      by_contra hi
      rw [h1.index_exit i (by omega)] at e1
      exact Except.noConfusion e1
    obtain ⟨p', w', e1', e2', _, f, _⟩ := store_spec h1 i hi x
    rw [e1] at e1'
    injection e1' with e1'
    subst e1'
    rw [e2] at e2'
    injection e2' with e2'
    subst e2'
    exact h2.same_view (f.keep h2 hsep).1
  · intro s w2 e
    rw [plus_assign_eq] at e
    obtain ⟨f, _⟩ := push_loop_ok b _ _ _ _ _ _ h1 e
    exact h2.same_view (f.keep h2 hsep).1

/-- C5 at the object "hi" of the sample memory, copied to address 5. -/
theorem C5_copy_isolated_witness :
    ∃ w1, String_copy sample 5 0 = .ok w1 ∧
      operator_eq w1 5 0 = .ok true ∧
      length w1 5 = length sample 0 ∧ capacity w1 5 = length sample 0 ∧
      Holds w1 5 ['h', 'i'] 2 ∧
      (w1.objs 0 = sample.objs 0 ∧ Holds w1 0 ['h', 'i'] 2 ∧ SameView sample w1 0) ∧
      (∀ c w2, push_back w1 0 c = .ok w2 → SameView w1 w2 5) ∧
      (∀ i p x w2, operator_index w1 0 i = .ok p → store w1 p x = .ok w2 →
        SameView w1 w2 5) ∧
      (∀ s w2, operator_plus_assign w1 0 s = .ok w2 → SameView w1 w2 5) :=
  C5_copy_isolated sample 5 0 ['h', 'i'] 2 sample_holds0 (by decide) (by decide)

/-! ## Move -/

theorem Holds.view_eq {w w' : World} {a a' : Nat} {S : List Char} {m : Nat}
    (h : Holds w a S m) (h' : Holds w' a' S m) :
    length w' a' = length w a ∧ capacity w' a' = capacity w a ∧
      ∀ i, read w' a' i = read w a i := by
  refine ⟨h'.size_eq.trans h.size_eq.symm, h'.capacity_eq.trans h.capacity_eq.symm, ?_⟩
  intro i
  by_cases hi : i < S.length
  · rw [h.read_eq i hi, h'.read_eq i hi]
  · simp [read, h.index_exit i (by omega), h'.index_exit i (by omega), bind, Except.bind]

/-- An object that received the cursors of a well-formed object is that
`String`, as long as the block behind the cursors is as it was. -/
theorem Holds.transfer {w w' : World} {s d : Nat} {S : List Char} {m : Nat}
    (h : Holds w s S m) (ho : w'.objs d = w.objs s) (hn : w.next ≤ w'.next)
    (hb : ∀ b, (w.objs s).elements = .addr b 0 → w'.blocks b = w.blocks b) :
    Holds w' d S m := by
  rcases h with ⟨h1, h2, h3⟩ | ⟨b, h1, h2, h3, h4, h5, h6, h7⟩
  · exact Or.inl ⟨ho.trans h1, h2, h3⟩
  · have hbb := hb b (by rw [h1])
    exact Or.inr ⟨b, ho.trans h1, h2, h3, by omega, by rw [hbb]; exact h5, by rw [hbb]; exact h6,
      by rw [hbb]; exact h7⟩

theorem free_spec {w : World} {a : Nat} {S : List Char} {m : Nat} (h : Holds w a S m) :
    ∃ w', free w a = .ok w' ∧ w'.objs = w.objs ∧ w'.next = w.next ∧ w'.room = w.room + m ∧
      (∀ b, (w.objs a).elements ≠ .addr b 0 → w'.blocks b = w.blocks b) ∧
      (∀ b, (w.objs a).elements = .addr b 0 → (w'.blocks b).live = false) := by
  rcases h with ⟨ho, _, hm0⟩ | ⟨b, ho, hle, hm, hb, hl, hsz, hc⟩
  · subst hm0
    exact ⟨w, by simp [free, ho], rfl, rfl, rfl, fun _ _ => rfl,
      fun b e => by rw [ho] at e; exact Ptr.noConfusion e⟩
  · refine ⟨release w b m, ?_, rfl, rfl, rfl, ?_, ?_⟩
    · simp only [free, ho]
      rw [diff_addr _ _ _ _ (Nat.zero_le _) hm]
      simp [deallocate, hl, hsz]
    · intro b' hne
      have : b' ≠ b := by
        intro e; subst e; exact hne (by rw [ho])
      simp [Function.update_noteq this]
    · intro b' e
      rw [ho] at e
      injection e with e
      subst e
      simp

/-- C6: moving a well-formed `b` into a distinct object `b2`, by the move
constructor or by move assignment over whatever `b2` held, leaves `b2` with
the cursors, and so the content, length and capacity, that `b` had, and leaves
`b` in the empty state: three null cursors, length 0, capacity 0.  Neither
allocates. -/
theorem C6_move (w : World) (b2 b : Nat) (S : List Char) (m : Nat)
    (hb : Holds w b S m) (hne : b2 ≠ b) :
    (∃ w', String_move w b2 b = .ok w' ∧
      w'.objs b2 = w.objs b ∧ Holds w' b2 S m ∧
      (length w' b2 = length w b ∧ capacity w' b2 = capacity w b ∧
        ∀ i, read w' b2 i = read w b i) ∧
      w'.objs b = ⟨.null, .null, .null⟩ ∧ length w' b = 0 ∧ capacity w' b = 0 ∧
      w'.next = w.next) ∧
    (∀ T k, Holds w b2 T k → Separate w b2 b →
      ∃ w', operator_assign_move w b2 b = .ok w' ∧
        w'.objs b2 = w.objs b ∧ Holds w' b2 S m ∧
        (length w' b2 = length w b ∧ capacity w' b2 = capacity w b ∧
          ∀ i, read w' b2 i = read w b i) ∧
        w'.objs b = ⟨.null, .null, .null⟩ ∧ length w' b = 0 ∧ capacity w' b = 0 ∧
        w'.next = w.next) := by
  constructor
  · have ho2 : (setObj (setObj w b2 ⟨(w.objs b).elements, (w.objs b).first_free, (w.objs b).cap⟩)
        b ⟨.null, .null, .null⟩).objs b2 = w.objs b := by
      simp [Function.update_noteq hne]
    have h2 := hb.transfer ho2 (by simp) (fun _ _ => by simp)
    have h0 := holds_setObj_null
      (setObj w b2 ⟨(w.objs b).elements, (w.objs b).first_free, (w.objs b).cap⟩) b
    exact ⟨_, rfl, ho2, h2, hb.view_eq h2, by simp, h0.size_eq, h0.capacity_eq, rfl⟩
  · intro T k h2 hsep
    obtain ⟨w1, e1, o1, n1, _, b1, _⟩ := free_spec h2
    have ho2 : (setObj (setObj w1 b2
        ⟨(w1.objs b).elements, (w1.objs b).first_free, (w1.objs b).cap⟩)
        b ⟨.null, .null, .null⟩).objs b2 = w.objs b := by
      simp [Function.update_noteq hne, o1]
    have hh := hb.transfer ho2 (by simp [n1]) (fun blk hblk => by
      simp only [setObj_blocks]
      apply b1
      intro e
      have := hsep.2 (e.trans hblk.symm)
      rw [this] at e
      exact Ptr.noConfusion e)
    have h0 := holds_setObj_null
      (setObj w1 b2 ⟨(w1.objs b).elements, (w1.objs b).first_free, (w1.objs b).cap⟩) b
    refine ⟨_, ?_, ho2, hh, hb.view_eq hh, by simp, h0.size_eq, h0.capacity_eq, by simp [n1]⟩
    simp [operator_assign_move, hne, e1, bind, Except.bind]

/-- C6 at the sample memory: "hi" moved to the fresh address 5 and over the
object "bye". -/
theorem C6_move_witness :
    (∃ w', String_move sample 5 0 = .ok w' ∧
      w'.objs 5 = sample.objs 0 ∧ Holds w' 5 ['h', 'i'] 2 ∧
      (length w' 5 = length sample 0 ∧ capacity w' 5 = capacity sample 0 ∧
        ∀ i, read w' 5 i = read sample 0 i) ∧
      w'.objs 0 = ⟨.null, .null, .null⟩ ∧ length w' 0 = 0 ∧ capacity w' 0 = 0 ∧
      w'.next = sample.next) ∧
    (∃ w', operator_assign_move sample 1 0 = .ok w' ∧
      w'.objs 1 = sample.objs 0 ∧ Holds w' 1 ['h', 'i'] 2 ∧
      (length w' 1 = length sample 0 ∧ capacity w' 1 = capacity sample 0 ∧
        ∀ i, read w' 1 i = read sample 0 i) ∧
      w'.objs 0 = ⟨.null, .null, .null⟩ ∧ length w' 0 = 0 ∧ capacity w' 0 = 0 ∧
      w'.next = sample.next) :=
  ⟨(C6_move sample 5 0 ['h', 'i'] 2 sample_holds0 (by decide)).1,
    (C6_move sample 1 0 ['h', 'i'] 2 sample_holds0 (by decide)).2 ['b', 'y', 'e'] 4
      sample_holds1 ⟨by decide, by decide⟩⟩

/-! ## Copy assignment -/

theorem operator_assign_spec {w : World} {a b : Nat} {S T : List Char} {m k : Nat}
    (ha : Holds w a T k) (hb : Holds w b S m) (hsep : Separate w a b)
    (hroom : S.length ≤ w.room) :
    ∃ w', operator_assign w a b = .ok w' ∧ Holds w' a S S.length ∧ Holds w' b S m ∧
      w'.objs b = w.objs b ∧ Separate w' a b ∧ w'.room + S.length = w.room + k := by
  have hS : S.length ≤ max_size := by have := hb.le; omega
  have hne := hsep.1
  -- the copy is made first
  have hcp := alloc_n_copy_holds hb hroom
  have ha1 : Holds (fill (grab w S.length) w.next 0 S) a T k := by
    refine ha.congr ?_ ?_ ?_
    · rfl
    · simp
    intro blk hblk
    rcases ha with ⟨h1, _, _⟩ | ⟨b', h1, _, _, h4, _⟩
    · rw [h1] at hblk; exact Ptr.noConfusion hblk
    · rw [h1] at hblk
      injection hblk with hblk
      have : blk ≠ w.next := by omega
      simp [Function.update_noteq this]
  -- then the old storage is released
  obtain ⟨w2, e2, o2, n2, r2, b2, _⟩ := free_spec ha1
  have hnx : w2.blocks w.next = (fill (grab w S.length) w.next 0 S).blocks w.next := by
    apply b2
    rcases ha with ⟨h1, _, _⟩ | ⟨b', h1, _, _, h4, _⟩
    · simp [h1]
    · simp only [fill_objs, grab_objs, h1]
      intro e
      injection e with e
      omega
  refine ⟨setObj w2 a ⟨.addr w.next 0, .addr w.next S.length, .addr w.next S.length⟩, ?_, ?_, ?_,
    ?_, ?_, ?_⟩
  · simp [operator_assign, hne, hcp, e2, bind, Except.bind]
  · apply (holds_of_copy w a S hS).congr
    · simp
    · simp [n2]
    · intro blk hblk
      simp only [setObj_objs, Function.update_same] at hblk
      injection hblk with hblk
      subst hblk
      simpa using hnx
  · apply hb.congr
    · simp [Function.update_noteq (Ne.symm hne), o2]
    · simp [n2]
    · intro blk hblk
      have hlt : blk < w.next := by
        rcases hb with ⟨h1, _, _⟩ | ⟨b', h1, _, _, h4, _⟩
        · rw [h1] at hblk; exact Ptr.noConfusion hblk
        · rw [h1] at hblk
          injection hblk with hblk
          omega
      have h1 : blk ≠ w.next := by omega
      have h3 : w2.blocks blk = (fill (grab w S.length) w.next 0 S).blocks blk := by
        apply b2
        simp only [fill_objs, grab_objs]
        intro e
        have := hsep.2 (e.trans hblk.symm)
        rw [this] at e
        exact Ptr.noConfusion e
      simp only [setObj_blocks, h3]
      simp [Function.update_noteq h1]
  · simp [Function.update_noteq (Ne.symm hne), o2]
  · refine ⟨hne, ?_⟩
    intro e
    simp only [setObj_objs, Function.update_same, Function.update_noteq (Ne.symm hne), o2,
      fill_objs, grab_objs] at e
    exfalso
    rcases hb with ⟨h1, _, _⟩ | ⟨b', h1, _, _, h4, _⟩
    · rw [h1] at e; exact Ptr.noConfusion e
    · rw [h1] at e
      injection e with e
      omega
  · simp only [setObj_room, r2, fill_room, grab_room]
    omega

/-- C7: after the copy assignment `a = b` between distinct well-formed
objects, `a == b` holds, `a.length == a.capacity == b.length` whatever `a`
held and however large its storage was, and `b` is unchanged (the allocator
having room for the copy). -/
theorem C7_copy_assign (w : World) (a b : Nat) (S T : List Char) (m k : Nat)
    (ha : Holds w a T k) (hb : Holds w b S m) (hsep : Separate w a b)
    (hroom : S.length ≤ w.room) :
    ∃ w', operator_assign w a b = .ok w' ∧
      operator_eq w' a b = .ok true ∧
      length w' a = length w b ∧ capacity w' a = length w b ∧
      (∀ i, i < length w b → read w' a i = read w b i) ∧
      (w'.objs b = w.objs b ∧ Holds w' b S m ∧ SameView w w' b) := by
  obtain ⟨w', e, ha', hb', ho, _, _⟩ := operator_assign_spec ha hb hsep hroom
  refine ⟨w', e, ?_, ha'.size_eq.trans hb.size_eq.symm, ha'.capacity_eq.trans hb.size_eq.symm,
    ?_, ho, hb', hb.same_view hb'⟩
  · rw [operator_eq_spec ha' hb']; simp
  · intro i hi
    have hi' : i < S.length := by rw [← hb.size_eq]; exact hi
    rw [ha'.read_eq i hi', hb.read_eq i hi']

/-- C7 at the sample memory: "bye" (capacity 4) is assigned to the object
holding "hi", and "hi" to the object holding "bye". -/
theorem C7_copy_assign_witness :
    (∃ w', operator_assign sample 0 1 = .ok w' ∧
      operator_eq w' 0 1 = .ok true ∧
      length w' 0 = length sample 1 ∧ capacity w' 0 = length sample 1 ∧
      (∀ i, i < length sample 1 → read w' 0 i = read sample 1 i) ∧
      (w'.objs 1 = sample.objs 1 ∧ Holds w' 1 ['b', 'y', 'e'] 4 ∧ SameView sample w' 1)) ∧
    length sample 1 = 3 :=
  ⟨C7_copy_assign sample 0 1 ['b', 'y', 'e'] ['h', 'i'] 4 2 sample_holds0 sample_holds1
    ⟨by decide, by decide⟩ (by decide), sample_holds1.size_eq⟩

/-! ## Self-assignment, reserve -/

/-- C8: copy-assigning and move-assigning an object to itself both return and
leave the whole memory as it was: the cursors of `b`, hence its content,
length and capacity, and every block, none being released. -/
theorem C8_self_assign (w : World) (b : Nat) :
    operator_assign w b b = .ok w ∧ operator_assign_move w b b = .ok w ∧
    ∀ w', operator_assign w b b = .ok w' ∨ operator_assign_move w b b = .ok w' →
      w'.objs b = w.objs b ∧ SameView w w' b ∧
      ∀ blk, (w'.blocks blk).live = (w.blocks blk).live := by
  have e1 : operator_assign w b b = .ok w := by simp [operator_assign]
  have e2 : operator_assign_move w b b = .ok w := by simp [operator_assign_move]
  refine ⟨e1, e2, ?_⟩
  intro w' h
  have : w' = w := by
    rcases h with h | h
    · rw [e1] at h; injection h with h; exact h.symm
    · rw [e2] at h; injection h with h; exact h.symm
  subst this
  exact ⟨rfl, ⟨rfl, rfl, fun _ => rfl⟩, fun _ => rfl⟩

theorem Holds.read_same {w w' : World} {a a' : Nat} {S : List Char} {m m' : Nat}
    (h : Holds w a S m) (h' : Holds w' a' S m') (i : Nat) : read w' a' i = read w a i := by
  by_cases hi : i < S.length
  · rw [h.read_eq i hi, h'.read_eq i hi]
  · simp [read, h.index_exit i (by omega), h'.index_exit i (by omega), bind, Except.bind]

/-- C9: `reserve(n)` on a well-formed object leaves content and length as they
were and makes the capacity `max(old capacity, n)`: nothing at all changes
when `n <= capacity`, the capacity is exactly `n` otherwise, and it never
decreases (the allocator being able to satisfy the request, when there is
one). -/
theorem C9_reserve (w : World) (a : Nat) (S : List Char) (m n : Nat) (h : Holds w a S m)
    (hroom : m < n → n ≤ max_size ∧ n ≤ w.room) :
    ∃ w', reserve w a n = .ok w' ∧
      length w' a = length w a ∧ (∀ i, read w' a i = read w a i) ∧
      capacity w' a = max (capacity w a) n ∧
      (n ≤ capacity w a → w' = w) ∧
      (capacity w a < n → capacity w' a = n) ∧
      capacity w a ≤ capacity w' a ∧
      Holds w' a S (capacity w' a) := by
  obtain ⟨w', e, hh, _, hnoop, _⟩ := reserve_spec h n hroom
  have hc : capacity w a = m := h.capacity_eq
  have hc' : capacity w' a = max m n := hh.capacity_eq
  refine ⟨w', e, hh.size_eq.trans h.size_eq.symm, h.read_same hh, by rw [hc, hc'],
    by rw [hc]; exact hnoop, ?_, ?_, by rw [hc']; exact hh⟩
  · intro hlt
    rw [hc', max_eq_right (by omega)]
  · rw [hc, hc']
    exact le_max_left _ _

/-- C9 at the object "bye" (capacity 4) of the sample memory: `reserve(10)`
and `reserve(3)`. -/
theorem C9_reserve_witness :
    (∃ w', reserve sample 1 10 = .ok w' ∧
      length w' 1 = length sample 1 ∧ (∀ i, read w' 1 i = read sample 1 i) ∧
      capacity w' 1 = max (capacity sample 1) 10 ∧
      (10 ≤ capacity sample 1 → w' = sample) ∧
      (capacity sample 1 < 10 → capacity w' 1 = 10) ∧
      capacity sample 1 ≤ capacity w' 1 ∧
      Holds w' 1 ['b', 'y', 'e'] (capacity w' 1)) ∧
    (∃ w', reserve sample 1 3 = .ok w' ∧
      length w' 1 = length sample 1 ∧ (∀ i, read w' 1 i = read sample 1 i) ∧
      capacity w' 1 = max (capacity sample 1) 3 ∧
      (3 ≤ capacity sample 1 → w' = sample) ∧
      (capacity sample 1 < 3 → capacity w' 1 = 3) ∧
      capacity sample 1 ≤ capacity w' 1 ∧
      Holds w' 1 ['b', 'y', 'e'] (capacity w' 1)) :=
  ⟨C9_reserve sample 1 ['b', 'y', 'e'] 4 10 sample_holds1 (fun _ => ⟨by decide, by decide⟩),
    C9_reserve sample 1 ['b', 'y', 'e'] 4 3 sample_holds1 (fun h => absurd h (by decide))⟩

/-- C8 at the object "hi" of the sample memory. -/
theorem C8_self_assign_witness :
    operator_assign sample 0 0 = .ok sample ∧ operator_assign_move sample 0 0 = .ok sample ∧
    ∀ w', operator_assign sample 0 0 = .ok w' ∨ operator_assign_move sample 0 0 = .ok w' →
      w'.objs 0 = sample.objs 0 ∧ SameView sample w' 0 ∧
      ∀ blk, (w'.blocks blk).live = (sample.blocks blk).live :=
  C8_self_assign sample 0

/-! ## Appending another object -/

/-- The loop of `operator+=` over the storage of another object does what
`push_back` does for each of its characters in order, whether or not every
allocation succeeds. -/
theorem push_loop_eq (a b : Nat) (cs : List Char) :
    ∀ (o : Nat) (w : World) (R : List Char) (m : Nat), Holds w a R m → RangeAt w b o cs →
      (w.objs a).elements ≠ .addr b 0 →
      for_each_n cs.length w (.addr b o) (fun w c => push_back w a c)
        = cs.foldlM (fun w c => push_back w a c) w := by
  induction cs with
  | nil =>
    intro o w R m _ _ _
    simp [for_each_n, pure, Except.pure]
  | cons c cs ih =>
    intro o w R m h hR hne
    have hload := hR.tail.1
    simp only [List.length_cons, for_each_n, hload, List.foldlM_cons, bind, Except.bind, Ptr.add]
    cases hp : push_back w a c with
    | error f => rfl
    | ok w1 =>
      obtain ⟨h1, f1⟩ := push_back_ok h hp
      obtain ⟨_, hR1, hne1⟩ := hR.step hne f1
      exact ih (o + 1) w1 _ _ h1 hR1 hne1

/-- Pushing the characters `cs` one after the other, with memory enough for
the reallocations on the way. -/
theorem push_fold_spec (a : Nat) (cs : List Char) :
    ∀ (w : World) (R : List Char) (m : Nat), Holds w a R m →
      (R.length + cs.length ≤ m ∨
        (3 * (R.length + cs.length) ≤ w.room + m ∧ 2 * (R.length + cs.length) ≤ max_size)) →
      ∃ w' m', cs.foldlM (fun w c => push_back w a c) w = .ok w' ∧ Holds w' a (R ++ cs) m' ∧
        Frame w w' a ∧ m ≤ m' := by
  induction cs with
  | nil =>
    intro w R m h _
    exact ⟨w, m, by simp [pure, Except.pure], by simpa using h, Frame.refl w a, Nat.le_refl _⟩
  | cons c cs ih =>
    intro w R m h hP
    simp only [List.length_cons] at hP
    have hle := h.le
    have hr : R.length = m →
        max 1 (2 * R.length) ≤ max_size ∧ max 1 (2 * R.length) ≤ w.room := by
      intro hfull
      rcases hP with hP | ⟨hP1, hP2⟩
      · omega
      · have : max 1 (2 * R.length) ≤ 2 * R.length + 1 := by omega
        constructor <;> omega
    obtain ⟨w1, e1, h1, f1, r1⟩ := push_back_spec h c hr
    have hP1 : (R ++ [c]).length + cs.length ≤ (if R.length = m then max 1 (2 * R.length) else m) ∨
        (3 * ((R ++ [c]).length + cs.length)
            ≤ w1.room + (if R.length = m then max 1 (2 * R.length) else m) ∧
          2 * ((R ++ [c]).length + cs.length) ≤ max_size) := by
      simp only [List.length_append, List.length_singleton]
      by_cases hfull : R.length = m
      · rw [if_pos hfull] at r1 ⊢
        rcases hP with hP | ⟨hP1, hP2⟩
        · omega
        · right; omega
      · rw [if_neg hfull] at r1 ⊢
        rcases hP with hP | ⟨hP1, hP2⟩
        · left; omega
        · right; omega
    obtain ⟨w2, m2, e2, h2, f2, hm2⟩ := ih w1 _ _ h1 hP1
    refine ⟨w2, m2, ?_, by simpa using h2, f1.trans f2, ?_⟩
    · simp [List.foldlM_cons, e1, e2, bind, Except.bind]
    · by_cases hfull : R.length = m
      · rw [if_pos hfull] at hm2
        have : 2 * R.length ≤ max 1 (2 * R.length) := le_max_right _ _
        omega
      · rw [if_neg hfull] at hm2; exact hm2

/-- C10: for distinct well-formed `a` and `b`, after `a += b` the content of
`a` is its old content followed by the content of `b` in order, its length is
the sum of the two lengths, `b` is unchanged, and the memory, so the content,
length and capacity of `a`, is the one reached by calling `push_back` on `a`
for each character of `b` in order (the memory sufficing for the
reallocations on the way). -/
theorem C10_plus_assign (w : World) (a b : Nat) (S1 S2 : List Char) (m1 m2 : Nat)
    (ha : Holds w a S1 m1) (hb : Holds w b S2 m2) (hsep : Separate w a b)
    (hroom : S1.length + S2.length ≤ m1 ∨
      (3 * (S1.length + S2.length) ≤ w.room + m1 ∧ 2 * (S1.length + S2.length) ≤ max_size)) :
    ∃ w', operator_plus_assign w a b = .ok w' ∧
      length w' a = length w a + length w b ∧
      (∀ i, i < length w a → read w' a i = read w a i) ∧
      (∀ j, j < length w b → read w' a (length w a + j) = read w b j) ∧
      (w'.objs b = w.objs b ∧ Holds w' b S2 m2 ∧ SameView w w' b) ∧
      S2.foldlM (fun w c => push_back w a c) w = .ok w' ∧
      Holds w' a (S1 ++ S2) (capacity w' a) := by
  have hla : length w a = S1.length := ha.size_eq
  have hlb : length w b = S2.length := hb.size_eq
  obtain ⟨w', m', e, h', f, _⟩ := push_fold_spec a S2 w S1 m1 ha hroom
  obtain ⟨hb', _⟩ := f.keep hb hsep
  have hloop : operator_plus_assign w a b = S2.foldlM (fun w c => push_back w a c) w := by
    rw [plus_assign_eq]
    have hsz := hb.size_eq
    simp only [size] at hsz
    simp only [for_each, begin_, end_, hsz]
    rcases hb with ⟨ho, hS0, _⟩ | ⟨blk, ho, hb2⟩
    · subst hS0
      simp [for_each_n, pure, Except.pure]
    · have hR : RangeAt w blk 0 S2 :=
        Holds.range (Or.inr ⟨blk, ho, hb2⟩ : Holds w b S2 m2) (by rw [ho])
      have hne : (w.objs a).elements ≠ .addr blk 0 := by
        intro e
        have := hsep.2 (by rw [e, ho])
        rw [e] at this
        exact Ptr.noConfusion this
      rw [ho]
      exact push_loop_eq a blk S2 0 w S1 m1 ha hR hne
  refine ⟨w', hloop.trans e, ?_, ?_, ?_, ⟨f.1 b (Ne.symm hsep.1), hb', hb.same_view hb'⟩, e, ?_⟩
  · rw [hla, hlb]; exact h'.size_eq.trans (by simp)
  · intro i hi
    rw [hla] at hi
    rw [ha.read_eq i hi, h'.read_eq i (by simp; omega)]
    simp [List.getElem_append_left hi]
  · intro j hj
    rw [hlb] at hj
    rw [hla, hb.read_eq j hj, h'.read_eq (S1.length + j) (by simp; omega)]
    simp [List.getElem_append_right]
  · rw [h'.capacity_eq]; exact h'

/-- C10 at the sample memory: the object "bye" is appended to the object
"hi". -/
theorem C10_plus_assign_witness :
    ∃ w', operator_plus_assign sample 0 1 = .ok w' ∧
      length w' 0 = length sample 0 + length sample 1 ∧
      (∀ i, i < length sample 0 → read w' 0 i = read sample 0 i) ∧
      (∀ j, j < length sample 1 → read w' 0 (length sample 0 + j) = read sample 1 j) ∧
      (w'.objs 1 = sample.objs 1 ∧ Holds w' 1 ['b', 'y', 'e'] 4 ∧ SameView sample w' 1) ∧
      ['b', 'y', 'e'].foldlM (fun w c => push_back w 0 c) sample = .ok w' ∧
      Holds w' 0 (['h', 'i'] ++ ['b', 'y', 'e']) (capacity w' 0) :=
  C10_plus_assign sample 0 1 ['h', 'i'] ['b', 'y', 'e'] 2 4 sample_holds0 sample_holds1
    ⟨by decide, by decide⟩ (Or.inr ⟨by decide, by decide⟩)

/-! ## Equality is equality of content -/

/-- C11: for well-formed `a` and `b`, whatever their capacities, `a == b`
returns, and returns true exactly when the lengths are equal and `a[i] == b[i]`
for every `i < a.length`; `a != b` returns the negation of `a == b`; and `==`
is reflexive, symmetric and transitive. -/
theorem C11_equality (w : World) (a b c : Nat) (S T U : List Char) (m k l : Nat)
    (ha : Holds w a S m) (hb : Holds w b T k) (hc : Holds w c U l) :
    (∃ r, operator_eq w a b = .ok r ∧ operator_ne w a b = .ok (!r)) ∧
    (operator_eq w a b = .ok true ↔
      (length w a = length w b ∧ ∀ i, i < length w a → read w a i = read w b i)) ∧
    operator_eq w a a = .ok true ∧
    (operator_eq w a b = .ok true → operator_eq w b a = .ok true) ∧
    (operator_eq w a b = .ok true → operator_eq w b c = .ok true →
      operator_eq w a c = .ok true) := by
  have hla : length w a = S.length := ha.size_eq
  have hlb : length w b = T.length := hb.size_eq
  have eab := operator_eq_spec ha hb
  have key : ∀ {X Y : List Char}, (Except.ok (decide (X = Y)) : Except Fault Bool) = .ok true ↔
      X = Y := by
    intro X Y
    constructor
    · intro h; injection h with h; exact of_decide_eq_true h
    · intro h; rw [decide_eq_true h]
  refine ⟨⟨decide (S = T), eab, by simp [operator_ne, eab, bind, Except.bind]⟩, ?_, ?_, ?_, ?_⟩
  · rw [eab, key, hla, hlb]
    constructor
    · intro h
      subst h
      exact ⟨rfl, fun i _ => (ha.read_same hb i).symm⟩
    · rintro ⟨hlen, hrd⟩
      apply List.ext_getElem hlen
      intro i h1 h2
      have := hrd i h1
      rw [ha.read_eq i h1, hb.read_eq i h2] at this
      injection this
  · rw [operator_eq_spec ha ha]; simp
  · rw [eab, operator_eq_spec hb ha, key, key]
    exact Eq.symm
  · rw [eab, operator_eq_spec hb hc, operator_eq_spec ha hc, key, key, key]
    exact Eq.trans

/-- C11 at the sample memory: "hi" against "bye" and the empty object. -/
theorem C11_equality_witness :
    (∃ r, operator_eq sample 0 1 = .ok r ∧ operator_ne sample 0 1 = .ok (!r)) ∧
    (operator_eq sample 0 1 = .ok true ↔
      (length sample 0 = length sample 1 ∧
        ∀ i, i < length sample 0 → read sample 0 i = read sample 1 i)) ∧
    operator_eq sample 0 0 = .ok true ∧
    (operator_eq sample 0 1 = .ok true → operator_eq sample 1 0 = .ok true) ∧
    (operator_eq sample 0 1 = .ok true → operator_eq sample 1 2 = .ok true →
      operator_eq sample 0 2 = .ok true) :=
  C11_equality sample 0 1 2 ['h', 'i'] ['b', 'y', 'e'] [] 2 4 0 sample_holds0 sample_holds1
    sample_holds2

/-! ## `operator+(char, const String&)` -/

theorem construct_at_end_from {w : World} {a lo : Nat} {S : List Char} {m : Nat}
    (h : HoldsFrom w a lo S m) (c : Char) (hlt : lo + S.length < m) :
    ∃ w', construct_at_end w a c = .ok w' ∧ HoldsFrom w' a lo (S ++ [c]) m ∧ Frame w w' a ∧
      w'.room = w.room := by
  obtain ⟨b, ho, hle, hm, hb, hl, hsz, hc⟩ := h
  have hlt2 : lo + S.length < (w.blocks b).size := by omega
  refine ⟨setObj (setCell w b (lo + S.length) c) a
    ⟨.addr b 0, .addr b (lo + S.length + 1), .addr b m⟩, ?_, ?_, ?_, ?_⟩
  · simp [construct_at_end, ho, construct, hl, hlt2, Ptr.add, bind, Except.bind]
  · refine ⟨b, by simp [Nat.add_assoc], by simp; omega, hm, by simpa using hb,
      by simpa using hl, by simpa using hsz, ?_⟩
    intro k hk
    simp only [List.length_append, List.length_singleton] at hk
    by_cases hk2 : k = S.length
    · subst hk2; simp
    · have hk3 : k < S.length := by omega
      have hk4 : lo + k ≠ lo + S.length := by omega
      simp [Function.update_noteq hk4, hc k hk3, List.getElem?_append_left hk3]
  · refine ⟨fun j hj => by simp [Function.update_noteq hj], by simp, ?_, Or.inl (by simp [ho])⟩
    intro b' _ hne
    have h2 : b' ≠ b := by
      intro e; subst e; exact hne (by rw [ho])
    simp [Function.update_noteq h2]
  · simp

theorem construct_loop_from (r b : Nat) (cs : List Char) :
    ∀ (o : Nat) (w : World) (lo : Nat) (R : List Char) (n : Nat), HoldsFrom w r lo R n →
      RangeAt w b o cs → (w.objs r).elements ≠ .addr b 0 → lo + R.length + cs.length ≤ n →
      ∃ w', for_each_n cs.length w (.addr b o) (fun w c => construct_at_end w r c) = .ok w' ∧
        HoldsFrom w' r lo (R ++ cs) n ∧ Frame w w' r ∧ w'.room = w.room := by
  induction cs with
  | nil =>
    intro o w lo R n h _ _ _
    exact ⟨w, by simp [for_each_n], by simpa using h, Frame.refl w r, rfl⟩
  | cons c cs ih =>
    intro o w lo R n h hR hne hle
    simp only [List.length_cons] at hle
    obtain ⟨w1, e1, h1, f1, r1⟩ := construct_at_end_from h c (by omega)
    obtain ⟨hload, hR1, hne1⟩ := hR.step hne f1
    obtain ⟨w2, e2, h2, f2, r2⟩ := ih (o + 1) w1 lo (R ++ [c]) n h1 hR1 hne1 (by simp; omega)
    refine ⟨w2, ?_, by simpa using h2, f1.trans f2, r2.trans r1⟩
    simp [for_each_n, hload, e1, e2, Ptr.add, bind, Except.bind]

theorem construct_from_part {w : World} {r s lo : Nat} {R S : List Char} {n m : Nat}
    (hr : HoldsFrom w r lo R n) (hs : Holds w s S m) (hsep : Separate w r s)
    (hle : lo + R.length + S.length ≤ n) :
    ∃ w', for_each w (begin_ w s) (end_ w s) (fun w c => construct_at_end w r c) = .ok w' ∧
      HoldsFrom w' r lo (R ++ S) n ∧ Frame w w' r ∧ w'.room = w.room := by
  have hsz := hs.size_eq
  simp only [size] at hsz
  simp only [for_each, begin_, end_, hsz]
  rcases hs with ⟨ho, hS0, _⟩ | ⟨b, ho, hrest⟩
  · subst hS0
    exact ⟨w, by simp [for_each_n], by simpa using hr, Frame.refl w r, rfl⟩
  · have hR : RangeAt w b 0 S :=
      Holds.range (Or.inr ⟨b, ho, hrest⟩ : Holds w s S m) (by rw [ho])
    have hne : (w.objs r).elements ≠ .addr b 0 := by
      intro e
      have := hsep.2 (by rw [e, ho])
      rw [e] at this
      exact Ptr.noConfusion this
    rw [ho]
    exact construct_loop_from r b S 0 w lo R n hr hR hne hle

/-- The state of the result of `operator+(char, const String&)` after
`String new_s(s.size() + 1)` and `new_s.first_free++`. -/
theorem char_plus_start {w : World} {a : Nat} {S : List Char} {m : Nat} (ha : Holds w a S m)
    (ret : Nat) (hne : ret ≠ a)
    (hroom : S.length + 1 ≤ max_size ∧ S.length + 1 ≤ w.room) :
    ∃ w1, String_n w ret ((size w a + 1) % SIZE_MOD) = .ok w1 ∧
      HoldsFrom (setObj w1 ret { w1.objs ret with first_free := (w1.objs ret).first_free.add 1 })
        ret 1 [] (S.length + 1) ∧
      Holds (setObj w1 ret { w1.objs ret with first_free := (w1.objs ret).first_free.add 1 })
        a S m ∧
      Separate (setObj w1 ret { w1.objs ret with first_free := (w1.objs ret).first_free.add 1 })
        ret a ∧
      (setObj w1 ret { w1.objs ret with first_free := (w1.objs ret).first_free.add 1 }).objs a
        = w.objs a := by
  have hmod : (size w a + 1) % SIZE_MOD = S.length + 1 := by
    have := max_size_lt
    rw [ha.size_eq, Nat.mod_eq_of_lt (by omega)]
  have h0 := holds_setObj_null w ret
  have ha0 := holds_setObj_other ha ret ⟨.null, .null, .null⟩ (Ne.symm hne)
  have sa0 : Separate (setObj w ret ⟨.null, .null, .null⟩) ret a :=
    separate_of_null hne (by simp)
  obtain ⟨w1, e1, h1, f1, _, _⟩ := reserve_spec h0 (S.length + 1) (fun _ => by simpa using hroom)
  rw [Nat.zero_max] at h1
  obtain ⟨ha1, sa1⟩ := f1.keep ha0 sa0
  have hoa : w1.objs a = w.objs a := by
    rw [f1.1 a (Ne.symm hne)]
    simp [Function.update_noteq (Ne.symm hne)]
  rcases h1 with ⟨_, _, hz⟩ | ⟨b, ho, hle, hm, hb, hl, hsz, hc⟩
  · omega
  · refine ⟨w1, by rw [hmod]; exact e1, ?_, ?_, ?_, ?_⟩
    · exact ⟨b, by simp [ho, Ptr.add], by simp, hm, by simpa using hb, by simpa using hl,
        by simpa using hsz, by simp⟩
    · exact holds_setObj_other ha1 ret _ (Ne.symm hne)
    · refine ⟨hne, ?_⟩
      intro e
      exfalso
      simp only [setObj_objs, Function.update_same, Function.update_noteq (Ne.symm hne), ho] at e
      have := sa1.2 (by rw [ho]; exact e)
      rw [ho] at this
      exact Ptr.noConfusion this
    · simp [Function.update_noteq (Ne.symm hne), hoa]

theorem construct_front {w : World} {a : Nat} {S : List Char} {m : Nat}
    (h : HoldsFrom w a 1 S m) (c : Char) :
    ∃ w', construct w (w.objs a).elements c = .ok w' ∧ Holds w' a (c :: S) m ∧ Frame w w' a := by
  obtain ⟨b, ho, hle, hm, hb, hl, hsz, hc⟩ := h
  have hlt : 0 < (w.blocks b).size := by omega
  refine ⟨setCell w b 0 c, by simp [ho, construct, hl, hlt], ?_, ?_⟩
  · refine Or.inr ⟨b, by simp [ho, Nat.add_comm], by simp; omega, hm, by simpa using hb,
      by simpa using hl, by simpa using hsz, ?_⟩
    intro k hk
    simp only [List.length_cons] at hk
    cases k with
    | zero => simp
    | succ k =>
      have hk3 : k < S.length := by omega
      have := hc k hk3
      rw [Nat.add_comm] at this
      simp [this]
  · refine ⟨fun j _ => by simp, by simp, ?_, Or.inl (by simp)⟩
    intro b' _ hne
    have h2 : b' ≠ b := by
      intro e; subst e; exact hne (by rw [ho])
    simp [Function.update_noteq h2]

/-- C12: `operator+(c, a)` builds, in the object `ret` it returns, a `String`
of length `a.length + 1` whose character at 0 is `c` and at `i + 1` is `a[i]`
for every `i < a.length`; `a` is not modified (the allocator being able to
satisfy the request of `a.length + 1` slots). -/
theorem C12_char_plus (w : World) (ret a : Nat) (c : Char) (S : List Char) (m : Nat)
    (ha : Holds w a S m) (hne : ret ≠ a)
    (hroom : S.length + 1 ≤ max_size ∧ S.length + 1 ≤ w.room) :
    ∃ w', char_operator_plus w ret c a = .ok w' ∧
      length w' ret = length w a + 1 ∧
      read w' ret 0 = .ok c ∧
      (∀ i, i < length w a → read w' ret (i + 1) = read w a i) ∧
      (w'.objs a = w.objs a ∧ Holds w' a S m ∧ SameView w w' a) ∧
      Holds w' ret (c :: S) (S.length + 1) := by
  have hla : length w a = S.length := ha.size_eq
  obtain ⟨w1, e1, hF, ha2, sep2, hoa2⟩ := char_plus_start ha ret hne hroom
  obtain ⟨w3, e3, h3, f3, _⟩ := construct_from_part hF ha2 sep2 (by simp; omega)
  obtain ⟨ha3, sep3⟩ := f3.keep ha2 sep2
  simp only [List.nil_append] at h3
  obtain ⟨w4, e4, h4, f4⟩ := construct_front h3 c
  obtain ⟨ha4, _⟩ := f4.keep ha3 sep3
  have hoa : w4.objs a = w.objs a := by
    rw [f4.1 a (Ne.symm hne), f3.1 a (Ne.symm hne), hoa2]
  refine ⟨w4, ?_, ?_, ?_, ?_, ⟨hoa, ha4, ha.same_view ha4⟩, h4⟩
  · simp only [char_operator_plus, e1, bind, Except.bind]
    rw [e3]
    exact e4
  · rw [hla]; exact h4.size_eq.trans (by simp)
  · rw [h4.read_eq 0 (by simp)]; simp
  · intro i hi
    rw [hla] at hi
    rw [ha.read_eq i hi, h4.read_eq (i + 1) (by simp; omega)]
    simp

/-- C12 at the sample memory: `'x' + "hi"`, built at address 5. -/
theorem C12_char_plus_witness :
    ∃ w', char_operator_plus sample 5 'x' 0 = .ok w' ∧
      length w' 5 = length sample 0 + 1 ∧
      read w' 5 0 = .ok 'x' ∧
      (∀ i, i < length sample 0 → read w' 5 (i + 1) = read sample 0 i) ∧
      (w'.objs 0 = sample.objs 0 ∧ Holds w' 0 ['h', 'i'] 2 ∧ SameView sample w' 0) ∧
      Holds w' 5 ('x' :: ['h', 'i']) (2 + 1) :=
  C12_char_plus sample 5 0 'x' ['h', 'i'] 2 sample_holds0 (by decide) ⟨by decide, by decide⟩

/-! ## `operator+(const String&, char)` -/

/-- C13: `operator+(a, c)` builds, in the object `ret` it returns, a `String`
of length `a.length + 1` whose first `a.length` characters are those of `a` in
order and whose last character is `c`; `a` is not modified (the allocator
having room for the copy and for the growth that `push_back` then needs). -/
theorem C13_plus_char (w : World) (ret a : Nat) (c : Char) (S : List Char) (m : Nat)
    (ha : Holds w a S m) (hne : ret ≠ a)
    (hroom : max 1 (2 * S.length) ≤ max_size ∧ S.length + max 1 (2 * S.length) ≤ w.room) :
    ∃ w', operator_plus_char w ret a c = .ok w' ∧
      length w' ret = length w a + 1 ∧
      (∀ i, i < length w a → read w' ret i = read w a i) ∧
      read w' ret (length w a) = .ok c ∧
      (w'.objs a = w.objs a ∧ Holds w' a S m ∧ SameView w w' a) ∧
      Holds w' ret (S ++ [c]) (max 1 (2 * S.length)) := by
  have hla : length w a = S.length := ha.size_eq
  have hS : S.length ≤ max_size := by have := ha.le; omega
  have h2 := holds_of_copy w ret S hS
  have h1 := holds_after_copy ha ret S
    ⟨.addr w.next 0, .addr w.next S.length, .addr w.next S.length⟩ (Ne.symm hne)
  have hsep := separate_after_copy ha ret S (.addr w.next S.length) (.addr w.next S.length)
    (Ne.symm hne)
  have hsep' : Separate (setObj (fill (grab w S.length) w.next 0 S) ret
      ⟨.addr w.next 0, .addr w.next S.length, .addr w.next S.length⟩) ret a := by
    refine ⟨hne, fun e => ?_⟩
    have := hsep.2 e.symm
    rw [← e] at this
    exact this
  obtain ⟨w', e, hh, f, _⟩ := push_back_spec h2 c
    (fun _ => ⟨hroom.1, by simp only [setObj_room, fill_room, grab_room]; omega⟩)
  rw [if_pos rfl] at hh
  obtain ⟨ha', _⟩ := f.keep h1 hsep'
  have hoa : w'.objs a = w.objs a := by
    rw [f.1 a (Ne.symm hne)]
    simp [Function.update_noteq (Ne.symm hne)]
  refine ⟨w', ?_, ?_, ?_, ?_, ⟨hoa, ha', ha.same_view ha'⟩, hh⟩
  · simp only [operator_plus_char, String_copy_spec ha ret (by omega : S.length ≤ w.room), bind,
      Except.bind]
    exact e
  · rw [hla]; exact hh.size_eq.trans (by simp)
  · intro i hi
    rw [hla] at hi
    rw [ha.read_eq i hi, hh.read_eq i (by simp; omega)]
    simp [List.getElem_append_left hi]
  · rw [hla, hh.read_eq S.length (by simp)]
    simp

/-- C13 at the sample memory: `"hi" + 'x'`, built at address 5. -/
theorem C13_plus_char_witness :
    ∃ w', operator_plus_char sample 5 0 'x' = .ok w' ∧
      length w' 5 = length sample 0 + 1 ∧
      (∀ i, i < length sample 0 → read w' 5 i = read sample 0 i) ∧
      read w' 5 (length sample 0) = .ok 'x' ∧
      (w'.objs 0 = sample.objs 0 ∧ Holds w' 0 ['h', 'i'] 2 ∧ SameView sample w' 0) ∧
      Holds w' 5 (['h', 'i'] ++ ['x']) (max 1 (2 * 2)) :=
  C13_plus_char sample 5 0 'x' ['h', 'i'] 2 sample_holds0 (by decide) ⟨by decide, by decide⟩

/-! ## Growth by doubling -/

/-! The allocator numbers the blocks it hands out, so `w'.next - w.next` is
the number of calls of `allocate` between `w` and `w'`.  `reallocate()` makes
exactly one, nothing else in `push_back` makes any. -/

theorem construct_next {w w' : World} {p : Ptr} {c : Char} (e : construct w p c = .ok w') :
    w'.next = w.next := by
  cases p with
  | null => exact Except.noConfusion e
  | addr b o =>
    simp only [construct] at e
    split at e
    · injection e with e
      subst e
      rfl
    · exact Except.noConfusion e

theorem uninitialized_copy_n_next (n : Nat) :
    ∀ (w w' : World) (s d p : Ptr), uninitialized_copy_n n w s d = .ok (p, w') →
      w'.next = w.next := by
  induction n with
  | zero =>
    intro w w' s d p e
    simp only [uninitialized_copy_n] at e
    injection e with e
    injection e with _ e
    rw [e]
  | succ n ih =>
    intro w w' s d p e
    simp only [uninitialized_copy_n, bind, Except.bind] at e
    cases hl : load w s with
    | error f => rw [hl] at e; exact Except.noConfusion e
    | ok c =>
      rw [hl] at e
      simp only [] at e
      cases hc : construct w d c with
      | error f => rw [hc] at e; exact Except.noConfusion e
      | ok w1 =>
        rw [hc] at e
        simp only [] at e
        rw [ih w1 w' _ _ p e, construct_next hc]

theorem free_next {w w' : World} {a : Nat} (e : free w a = .ok w') : w'.next = w.next := by
  simp only [free] at e
  split at e
  · cases hp : (w.objs a).elements with
    | null => rw [hp] at e; exact Except.noConfusion e
    | addr b o =>
      rw [hp] at e
      simp only [deallocate] at e
      split at e
      · injection e with e
        subst e
        rfl
      · exact Except.noConfusion e
  · injection e with e
    rw [e]

/-- A call of `alloc_n_move` that returns has allocated exactly one block. -/
theorem alloc_n_move_next {w w' : World} {a n : Nat} (e : alloc_n_move w a n = .ok w') :
    w'.next = w.next + 1 := by
  by_cases hcond : n ≤ max_size ∧ n ≤ w.room
  · have hal : allocate w n = .ok (.addr w.next 0, grab w n) := by simp [allocate, hcond]
    simp only [alloc_n_move, hal, bind, Except.bind] at e
    cases hc : uninitialized_copy (grab w n) (begin_ (grab w n) a) (end_ (grab w n) a)
        (.addr w.next 0) with
    | error f => rw [hc] at e; exact Except.noConfusion e
    | ok r =>
      obtain ⟨last, w2⟩ := r
      rw [hc] at e
      simp only [] at e
      cases hf : free w2 a with
      | error f => rw [hf] at e; exact Except.noConfusion e
      | ok w3 =>
        rw [hf] at e
        simp only [] at e
        injection e with e
        subst e
        rw [setObj_next, free_next hf, uninitialized_copy_n_next _ _ _ _ _ _ hc, grab_next]
  · rw [alloc_n_move_fail w a n hcond] at e
    exact Except.noConfusion e

/-- A call of `reallocate()` that returns has allocated exactly one block. -/
theorem reallocate_next {w w' : World} {a : Nat} (e : reallocate w a = .ok w') :
    w'.next = w.next + 1 :=
  alloc_n_move_next e

theorem construct_at_end_next {w w' : World} {a : Nat} {c : Char}
    (e : construct_at_end w a c = .ok w') : w'.next = w.next := by
  simp only [construct_at_end, bind, Except.bind] at e
  cases hc : construct w (w.objs a).first_free c with
  | error f => rw [hc] at e; exact Except.noConfusion e
  | ok w1 =>
    rw [hc] at e
    simp only [] at e
    injection e with e
    subst e
    rw [setObj_next, construct_next hc]

/-- A `push_back` that returns has allocated one block when it found
`size() == capacity()`, through its call of `reallocate()`, and none
otherwise. -/
theorem push_back_next {w w' : World} {a : Nat} {c : Char} (e : push_back w a c = .ok w') :
    w'.next = w.next + (if size w a = capacity w a then 1 else 0) := by
  simp only [push_back, check_n_alloc, bind, Except.bind] at e
  by_cases hfull : size w a = capacity w a
  · simp only [hfull, if_true] at e ⊢
    cases hr : reallocate w a with
    | error f => rw [hr] at e; exact Except.noConfusion e
    | ok w1 =>
      rw [hr] at e
      simp only [] at e
      rw [construct_at_end_next e, reallocate_next hr]
  · simp only [hfull, if_false] at e ⊢
    exact construct_at_end_next e

theorem reallocations_snoc (a : Nat) (c : Char) (cs : List Char) :
    ∀ (w w1 : World), cs.foldlM (fun w c => push_back w a c) w = .ok w1 →
      reallocations w a (cs ++ [c])
        = reallocations w a cs + (if size w1 a = capacity w1 a then 1 else 0) := by
  induction cs with
  | nil =>
    intro w w1 e
    simp only [List.foldlM_nil, pure, Except.pure] at e
    injection e with e
    subst e
    cases hp : push_back w a c <;> simp [reallocations, hp]
  | cons d cs ih =>
    intro w w1 e
    simp only [List.foldlM_cons, bind, Except.bind] at e
    cases hp : push_back w a d with
    | error f => rw [hp] at e; exact Except.noConfusion e
    | ok w2 =>
      rw [hp] at e
      simp only [] at e
      have hih := ih w2 w1 e
      show reallocations w a (d :: (cs ++ [c])) = reallocations w a (d :: cs) + _
      simp only [reallocations, hp]
      rw [hih]
      omega

/-- Appending the characters `cs`, at least one, to an empty object: the
capacity ends as a power of two `2 ^ k` with `cs.length <= 2 ^ k < 2 *
cs.length`, after `k + 1` calls of `reallocate()`. -/
theorem push_from_empty (a : Nat) (cs : List Char) :
    ∀ (w : World), cs ≠ [] → Holds w a [] 0 → 3 * cs.length ≤ w.room →
      2 * cs.length ≤ max_size →
      ∃ w' k, cs.foldlM (fun w c => push_back w a c) w = .ok w' ∧ Holds w' a cs (2 ^ k) ∧
        cs.length ≤ 2 ^ k ∧ 2 ^ k < 2 * cs.length ∧ reallocations w a cs = k + 1 ∧
        w'.room + 2 ^ k = w.room ∧ w'.next = w.next + (k + 1) := by
  induction cs using List.reverseRecOn with
  | nil => intro w h; exact absurd rfl h
  | append_singleton cs c ih =>
    intro w _ h hroom hmax
    simp only [List.length_append, List.length_singleton] at hroom hmax
    by_cases hcs : cs = []
    · subst hcs
      obtain ⟨w', e, hh, _, r⟩ := push_back_spec h c (fun _ => by
        simp only [List.length_nil, Nat.mul_zero, Nat.max_zero] at hroom hmax ⊢
        constructor <;> omega)
      simp only [List.length_nil, if_true, Nat.mul_zero, Nat.max_zero, List.nil_append] at hh r
      have hsz : size w a = capacity w a := by rw [h.size_eq, h.capacity_eq]; rfl
      have hnx := push_back_next e
      rw [if_pos hsz] at hnx
      refine ⟨w', 0, by simp [e, bind, Except.bind, pure, Except.pure], by simpa using hh,
        by simp, by simp, ?_,
        by simpa using r, hnx⟩
      simp [reallocations, hsz, e]
    · obtain ⟨w1, k, e1, h1, hlo, hhi, hcnt, r1, n1⟩ := ih w hcs h (by omega) (by omega)
      have hpow : 2 ^ (k + 1) = 2 * 2 ^ k := by rw [pow_succ]; omega
      have hpos : 1 ≤ 2 ^ k := Nat.one_le_two_pow
      obtain ⟨w2, e2, h2, _, r2⟩ := push_back_spec h1 c (fun hfull => by
        have : max 1 (2 * cs.length) = 2 * cs.length := max_eq_right (by omega)
        rw [this]
        constructor <;> omega)
      have hsnoc := reallocations_snoc a c cs w w1 e1
      rw [h1.size_eq, h1.capacity_eq] at hsnoc
      have hnx := push_back_next e2
      rw [h1.size_eq, h1.capacity_eq] at hnx
      have hfold : (cs ++ [c]).foldlM (fun w c => push_back w a c) w = .ok w2 := by
        simp [List.foldlM_append, e1, e2, bind, Except.bind, pure, Except.pure]
      by_cases hfull : cs.length = 2 ^ k
      · have hmx : max 1 (2 * cs.length) = 2 ^ (k + 1) := by
          rw [max_eq_right (by omega), hpow, hfull]
        rw [if_pos hfull, hmx] at h2 r2
        rw [if_pos hfull] at hsnoc hnx
        refine ⟨w2, k + 1, hfold, h2, ?_, ?_, by rw [hsnoc, hcnt], by omega, by omega⟩
        · simp only [List.length_append, List.length_singleton]; omega
        · simp only [List.length_append, List.length_singleton]; omega
      · rw [if_neg hfull] at h2 r2 hsnoc hnx
        refine ⟨w2, k, hfold, h2, ?_, ?_, by rw [hsnoc, hcnt], by omega, by omega⟩
        · simp only [List.length_append, List.length_singleton]; omega
        · simp only [List.length_append, List.length_singleton]; omega

/-- C14: appending `N >= 1` characters one at a time with `push_back` to an
empty object ends with capacity at least `N`, after at most
`floor(log2 N) + 2` calls of `reallocate()` (the memory sufficing for the
reallocations).  The calls are counted on the code by the blocks the allocator
hands out, `w'.next - w.next`: every call of `reallocate()` that returns takes
exactly one block, and a `push_back` takes a block only through that call,
made when it finds `size() == capacity()`. -/
theorem C14_amortized_growth (w : World) (a : Nat) (cs : List Char) (hN : 1 ≤ cs.length)
    (h : Holds w a [] 0) (hroom : 3 * cs.length ≤ w.room ∧ 2 * cs.length ≤ max_size) :
    (∀ u u', reallocate u a = .ok u' → u'.next = u.next + 1) ∧
    (∀ u c u', push_back u a c = .ok u' →
      u'.next = u.next + (if size u a = capacity u a then 1 else 0)) ∧
    ∃ w', cs.foldlM (fun w c => push_back w a c) w = .ok w' ∧
      length w' a = cs.length ∧ cs.length ≤ capacity w' a ∧
      w'.next - w.next ≤ Nat.log 2 cs.length + 2 ∧
      reallocations w a cs = w'.next - w.next := by
  have hne : cs ≠ [] := by
    intro e; subst e; simp at hN
  obtain ⟨w', k, e, hh, hlo, hhi, hcnt, _, hnx⟩ :=
    push_from_empty a cs w hne h hroom.1 hroom.2
  refine ⟨fun u u' e' => reallocate_next e', fun u c u' e' => push_back_next e', w', e,
    hh.size_eq, by rw [hh.capacity_eq]; exact hlo, ?_, by rw [hcnt, hnx]; omega⟩
  rw [hnx]
  cases k with
  | zero => omega
  | succ j =>
    have hpow : 2 ^ (j + 1) = 2 * 2 ^ j := by rw [pow_succ]; omega
    have : j ≤ Nat.log 2 cs.length := Nat.le_log_of_pow_le (by norm_num) (by omega)
    omega

/-- C14 at the empty object of the sample memory and three characters. -/
theorem C14_amortized_growth_witness :
    (∀ u u', reallocate u 2 = .ok u' → u'.next = u.next + 1) ∧
    (∀ u c u', push_back u 2 c = .ok u' →
      u'.next = u.next + (if size u 2 = capacity u 2 then 1 else 0)) ∧
    ∃ w', ['a', 'b', 'c'].foldlM (fun w c => push_back w 2 c) sample = .ok w' ∧
      length w' 2 = 3 ∧ 3 ≤ capacity w' 2 ∧
      w'.next - sample.next ≤ Nat.log 2 3 + 2 ∧
      reallocations sample 2 ['a', 'b', 'c'] = w'.next - sample.next :=
  C14_amortized_growth sample 2 ['a', 'b', 'c'] (by decide) sample_holds2
    ⟨by decide, by decide⟩

/-- C20: after `N >= 1` calls of `push_back` on a default-constructed object
the capacity is the smallest power of two that is at least `N`, namely
`2 ^ clog2 N`, hence `N <= capacity < 2 * N` (the memory sufficing for the
reallocations). -/
theorem C20_capacity_power_of_two (w : World) (a : Nat) (cs : List Char)
    (hN : 1 ≤ cs.length) (hroom : 3 * cs.length ≤ w.room ∧ 2 * cs.length ≤ max_size) :
    ∃ w0 w', String_default w a = .ok w0 ∧
      cs.foldlM (fun w c => push_back w a c) w0 = .ok w' ∧
      capacity w' a = 2 ^ Nat.clog 2 cs.length ∧
      (∀ j, cs.length ≤ 2 ^ j → capacity w' a ≤ 2 ^ j) ∧
      cs.length ≤ capacity w' a ∧ capacity w' a < 2 * cs.length := by
  have hne : cs ≠ [] := by
    intro e; subst e; simp at hN
  obtain ⟨w', k, e, hh, hlo, hhi, _, _⟩ := push_from_empty a cs
    (setObj w a ⟨.null, .null, .null⟩) hne (holds_setObj_null w a) (by simpa using hroom.1)
    hroom.2
  have hk : k = Nat.clog 2 cs.length := by
    apply Nat.le_antisymm
    · cases k with
      | zero => exact Nat.zero_le _
      | succ j =>
        have hpow : 2 ^ (j + 1) = 2 * 2 ^ j := by rw [pow_succ]; omega
        have : 2 ^ j < cs.length := by omega
        exact (Nat.pow_lt_iff_lt_clog (by norm_num)).mp this
    · exact (Nat.le_pow_iff_clog_le (by norm_num)).mp hlo
  refine ⟨_, w', rfl, e, by rw [hh.capacity_eq, hk], ?_, by rw [hh.capacity_eq]; exact hlo,
    by rw [hh.capacity_eq]; exact hhi⟩
  intro j hj
  rw [hh.capacity_eq, hk]
  exact Nat.pow_le_pow_right (by norm_num) ((Nat.le_pow_iff_clog_le (by norm_num)).mp hj)

/-- C20 at the sample memory: five characters pushed on an object
default-constructed at address 5. -/
theorem C20_capacity_power_of_two_witness :
    ∃ w0 w', String_default sample 5 = .ok w0 ∧
      ['a', 'b', 'c', 'd', 'e'].foldlM (fun w c => push_back w 5 c) w0 = .ok w' ∧
      capacity w' 5 = 2 ^ Nat.clog 2 5 ∧
      (∀ j, 5 ≤ 2 ^ j → capacity w' 5 ≤ 2 ^ j) ∧
      5 ≤ capacity w' 5 ∧ capacity w' 5 < 2 * 5 :=
  C20_capacity_power_of_two sample 5 ['a', 'b', 'c', 'd', 'e'] (by decide)
    ⟨by decide, by decide⟩

/-! ## Writing through `operator[]` -/

/-- C19: writing `x` through the reference that `operator[](i)` returns, for
`i < length`, makes the character at `i` equal to `x` and leaves the character
at every other index, the length and the capacity as they were. -/
theorem C19_indexed_write (w : World) (b : Nat) (S : List Char) (m i : Nat) (x : Char)
    (h : Holds w b S m) (hi : i < length w b) :
    ∃ p w', operator_index w b i = .ok p ∧ store w p x = .ok w' ∧
      read w' b i = .ok x ∧
      (∀ j, j ≠ i → read w' b j = read w b j) ∧
      length w' b = length w b ∧ capacity w' b = capacity w b ∧
      Holds w' b (S.set i x) m := by
  have hi' : i < S.length := by rw [← h.size_eq]; exact hi
  obtain ⟨p, w', e1, e2, hh, _, _⟩ := store_spec h i hi' x
  refine ⟨p, w', e1, e2, ?_, ?_, ?_, hh.capacity_eq.trans h.capacity_eq.symm, hh⟩
  · rw [hh.read_eq i (by simpa using hi')]
    simp
  · intro j hj
    by_cases hjl : j < S.length
    · rw [h.read_eq j hjl, hh.read_eq j (by simpa using hjl)]
      simp [List.getElem_set_ne (Ne.symm hj)]
    · simp [read, h.index_exit j (by omega), hh.index_exit j (by simp; omega), bind,
        Except.bind]
  · exact hh.size_eq.trans (by simp [length, h.size_eq])

/-- C19 at the object "bye" of the sample memory: `s[1] = 'x'`. -/
theorem C19_indexed_write_witness :
    ∃ p w', operator_index sample 1 1 = .ok p ∧ store sample p 'x' = .ok w' ∧
      read w' 1 1 = .ok 'x' ∧
      (∀ j, j ≠ 1 → read w' 1 j = read sample 1 j) ∧
      length w' 1 = length sample 1 ∧ capacity w' 1 = capacity sample 1 ∧
      Holds w' 1 (['b', 'y', 'e'].set 1 'x') 4 :=
  C19_indexed_write sample 1 ['b', 'y', 'e'] 4 1 'x' sample_holds1
    (by rw [show length sample 1 = 3 from sample_holds1.size_eq]; decide)

/-! ## Allocation failure -/

theorem tight_holds0 : Holds tight 0 ['h', 'i'] 2 :=
  Or.inr ⟨1, by decide, by decide, by decide, by decide, by decide, by decide, by decide⟩

theorem tight_holds1 : Holds tight 1 ['b', 'y', 'e'] 4 :=
  Or.inr ⟨2, by decide, by decide, by decide, by decide, by decide, by decide, by decide⟩

theorem reserve_fail {w : World} {a : Nat} {S : List Char} {m : Nat} (h : Holds w a S m)
    (n : Nat) (hlt : m < n) (hno : ¬ (n ≤ max_size ∧ n ≤ w.room)) :
    reserve w a n = .error (.bad_alloc w) := by
  have : ¬ n ≤ capacity w a := by rw [h.capacity_eq]; omega
  simp only [reserve, this, if_false]
  exact alloc_n_move_fail w a n hno

theorem push_back_fail {w : World} {a : Nat} {S : List Char} {m : Nat} (h : Holds w a S m)
    (c : Char) (hfull : S.length = m)
    (hno : ¬ (max 1 (2 * S.length) ≤ max_size ∧ max 1 (2 * S.length) ≤ w.room)) :
    push_back w a c = .error (.bad_alloc w) := by
  have hsz : size w a = capacity w a := by rw [h.size_eq, h.capacity_eq, hfull]
  simp only [push_back, check_n_alloc, hsz, if_true, reallocate]
  rw [← hsz, new_cap_eq h, alloc_n_move_fail w a _ hno]
  rfl

theorem operator_assign_fail {w : World} {a b : Nat} {T : List Char} {k : Nat}
    (hb : Holds w b T k) (hne : a ≠ b) (hno : ¬ T.length ≤ w.room) :
    operator_assign w a b = .error (.bad_alloc w) := by
  have hd : Ptr.diff (w.objs b).first_free (w.objs b).elements = T.length := hb.size_eq
  have : ¬ (T.length ≤ max_size ∧ T.length ≤ w.room) := fun h => hno h.2
  simp [operator_assign, hne, alloc_n_copy, hd, allocate, this, bind, Except.bind]

/-- A `bad_alloc` out of `push_back` leaves the memory as it was. -/
theorem push_back_bad_alloc {w w' : World} {a : Nat} {S : List Char} {m : Nat} {c : Char}
    (h : Holds w a S m) (e : push_back w a c = .error (.bad_alloc w')) : w' = w := by
  by_cases hr : S.length = m → max 1 (2 * S.length) ≤ max_size ∧ max 1 (2 * S.length) ≤ w.room
  · obtain ⟨w'', e', _⟩ := push_back_spec h c hr
    rw [e] at e'
    exact Except.noConfusion e'
  · simp only [Classical.not_imp] at hr
    rw [push_back_fail h c hr.1 hr.2] at e
    injection e with e
    injection e with e
    exact e.symm

/-- A `bad_alloc` out of the loop of `operator+=` finds the object with the
characters appended before the failing growth step. -/
theorem push_loop_bad_alloc (a b : Nat) (cs : List Char) :
    ∀ (o : Nat) (w w' : World) (R : List Char) (m : Nat), Holds w a R m → RangeAt w b o cs →
      (w.objs a).elements ≠ .addr b 0 →
      for_each_n cs.length w (.addr b o) (fun w c => push_back w a c) = .error (.bad_alloc w') →
      ∃ pre suf m', cs = pre ++ suf ∧ suf ≠ [] ∧ Holds w' a (R ++ pre) m' ∧ Frame w w' a := by
  induction cs with
  | nil =>
    intro o w w' R m _ _ _ e
    simp only [List.length_nil, for_each_n] at e
    exact Except.noConfusion e
  | cons c cs ih =>
    intro o w w' R m h hR hne e
    have hload := hR.tail.1
    simp only [List.length_cons, for_each_n, hload, bind, Except.bind, Ptr.add] at e
    cases hp : push_back w a c with
    | error f =>
      rw [hp] at e
      simp only [] at e
      injection e with e
      subst e
      have := push_back_bad_alloc h hp
      subst this
      exact ⟨[], c :: cs, m, rfl, by simp, by simpa using h, Frame.refl _ a⟩
    | ok w1 =>
      rw [hp] at e
      simp only [] at e
      obtain ⟨h1, f1⟩ := push_back_ok h hp
      obtain ⟨_, hR1, hne1⟩ := hR.step hne f1
      obtain ⟨pre, suf, m', hcs, hsuf, hh, f2⟩ := ih (o + 1) w1 w' _ _ h1 hR1 hne1 e
      exact ⟨c :: pre, suf, m', by simp [hcs], hsuf, by simpa using hh, f1.trans f2⟩

/-- Pushing the characters `cs` one after the other, when every push
returned: the object holds its old content followed by `cs`. -/
theorem push_fold_ok (a : Nat) (cs : List Char) :
    ∀ (w w1 : World) (R : List Char) (m : Nat), Holds w a R m →
      cs.foldlM (fun w c => push_back w a c) w = .ok w1 →
      ∃ m', Holds w1 a (R ++ cs) m' ∧ Frame w w1 a := by
  induction cs with
  | nil =>
    intro w w1 R m h e
    simp only [List.foldlM_nil, pure, Except.pure] at e
    injection e with e
    subst e
    exact ⟨m, by simpa using h, Frame.refl _ a⟩
  | cons c cs ih =>
    intro w w1 R m h e
    simp only [List.foldlM_cons, bind, Except.bind] at e
    cases hp : push_back w a c with
    | error f => rw [hp] at e; exact Except.noConfusion e
    | ok w2 =>
      rw [hp] at e
      simp only [] at e
      obtain ⟨h2, f2⟩ := push_back_ok h hp
      obtain ⟨m', hh, f⟩ := ih w2 w1 _ _ h2 e
      exact ⟨m', by simpa using hh, f2.trans f⟩

/-- `a += b` between separate well-formed objects is `push_back` on `a` for
each character of `b` in order, whatever the outcome. -/
theorem plus_assign_fold {w : World} {a b : Nat} {S T : List Char} {m k : Nat}
    (ha : Holds w a S m) (hb : Holds w b T k) (hsep : Separate w a b) :
    operator_plus_assign w a b = T.foldlM (fun w c => push_back w a c) w := by
  rw [plus_assign_eq]
  have hsz := hb.size_eq
  simp only [size] at hsz
  simp only [for_each, begin_, end_, hsz]
  rcases hb with ⟨ho, hT0, _⟩ | ⟨blk, ho, hrest⟩
  · subst hT0
    simp [for_each_n, pure, Except.pure]
  · have hR : RangeAt w blk 0 T :=
      Holds.range (Or.inr ⟨blk, ho, hrest⟩ : Holds w b T k) (by rw [ho])
    have hne : (w.objs a).elements ≠ .addr blk 0 := by
      intro e
      have := hsep.2 (by rw [e, ho])
      rw [e] at this
      exact Ptr.noConfusion this
    rw [ho]
    exact push_loop_eq a blk T 0 w S m ha hR hne

/-- A growth step of `a += b` whose request cannot be satisfied ends the whole
`+=` in `bad_alloc`, thrown from the memory reached by the characters appended
before it. -/
theorem plus_assign_fail {w w1 : World} {a b : Nat} {S T : List Char} {m k : Nat}
    (ha : Holds w a S m) (hb : Holds w b T k) (hsep : Separate w a b)
    (pre : List Char) (c : Char) (suf : List Char) (hT : T = pre ++ c :: suf)
    (e1 : pre.foldlM (fun w c => push_back w a c) w = .ok w1)
    (hfull : size w1 a = capacity w1 a)
    (hno : ¬ (max 1 (2 * size w1 a) ≤ max_size ∧ max 1 (2 * size w1 a) ≤ w1.room)) :
    operator_plus_assign w a b = .error (.bad_alloc w1) := by
  obtain ⟨m', h1, _⟩ := push_fold_ok a pre w w1 S m ha e1
  have hlen : (S ++ pre).length = m' := by
    rw [← h1.size_eq, ← h1.capacity_eq]; exact hfull
  rw [h1.size_eq] at hno
  have hp := push_back_fail h1 c hlen hno
  rw [plus_assign_fold ha hb hsep, hT, List.foldlM_append]
  simp [e1, List.foldlM_cons, hp, bind, Except.bind]

/-- C16, the claim as stated fails for `operator+=`: with no slot left in the
allocator, appending "hi" to the object "bye" of capacity 4 appends 'h', then
throws `bad_alloc` at the growth step for 'i'; the object is found with length
4 and 'h' at index 3, not with its prior length 3. -/
theorem C16_plus_assign_partial :
    ∃ w', operator_plus_assign tight 1 0 = .error (.bad_alloc w') ∧
      length tight 1 = 3 ∧ length w' 1 = 4 ∧ read w' 1 3 = .ok 'h' :=
  ⟨_, rfl, by decide, by decide, rfl⟩

/-- C16, amended: a `bad_alloc` out of `reserve`, `push_back` or copy
assignment finds the memory, and so the object, exactly as it was before the
call, and these calls do end in `bad_alloc` when their one request cannot be
satisfied; a `bad_alloc` out of `a += b` finds `a` well formed with its prior
content followed by the characters of `b` appended before the failing growth
step, and `b` unchanged, and `a += b` does end in `bad_alloc`, thrown from the
memory reached by the characters appended so far, when the request of a
growth step cannot be satisfied. -/
theorem C16_alloc_failure (w : World) (a b : Nat) (S T : List Char) (m k n : Nat) (c : Char)
    (ha : Holds w a S m) (hb : Holds w b T k) (hsep : Separate w a b) :
    ((∀ w', reserve w a n = .error (.bad_alloc w') → w' = w) ∧
      (m < n → ¬ (n ≤ max_size ∧ n ≤ w.room) → reserve w a n = .error (.bad_alloc w))) ∧
    ((∀ w', push_back w a c = .error (.bad_alloc w') → w' = w) ∧
      (S.length = m → ¬ (max 1 (2 * S.length) ≤ max_size ∧ max 1 (2 * S.length) ≤ w.room) →
        push_back w a c = .error (.bad_alloc w))) ∧
    ((∀ w', operator_assign w a b = .error (.bad_alloc w') → w' = w) ∧
      (¬ T.length ≤ w.room → operator_assign w a b = .error (.bad_alloc w))) ∧
    ((∀ w', operator_plus_assign w a b = .error (.bad_alloc w') →
      ∃ pre suf m', T = pre ++ suf ∧ suf ≠ [] ∧ Holds w' a (S ++ pre) m' ∧
        w'.objs b = w.objs b ∧ Holds w' b T k) ∧
      (∀ pre d suf w1, T = pre ++ d :: suf →
        pre.foldlM (fun w c => push_back w a c) w = .ok w1 →
        size w1 a = capacity w1 a →
        ¬ (max 1 (2 * size w1 a) ≤ max_size ∧ max 1 (2 * size w1 a) ≤ w1.room) →
        operator_plus_assign w a b = .error (.bad_alloc w1) ∧
          ∃ m', Holds w1 a (S ++ pre) m' ∧ w1.objs b = w.objs b ∧ Holds w1 b T k)) := by
  refine ⟨⟨?_, fun hlt hno => reserve_fail ha n hlt hno⟩,
    ⟨fun w' e => push_back_bad_alloc ha e, fun hfull hno => push_back_fail ha c hfull hno⟩,
    ⟨?_, fun hno => operator_assign_fail hb hsep.1 hno⟩, ?_, ?_⟩
  · intro w' e
    by_cases hr : m < n → n ≤ max_size ∧ n ≤ w.room
    · obtain ⟨w'', e', _⟩ := reserve_spec ha n hr
      rw [e] at e'
      exact Except.noConfusion e'
    · simp only [Classical.not_imp] at hr
      rw [reserve_fail ha n hr.1 hr.2] at e
      injection e with e
      injection e with e
      exact e.symm
  · intro w' e
    by_cases hr : T.length ≤ w.room
    · obtain ⟨w'', e', _⟩ := operator_assign_spec ha hb hsep hr
      rw [e] at e'
      exact Except.noConfusion e'
    · rw [operator_assign_fail hb hsep.1 hr] at e
      injection e with e
      injection e with e
      exact e.symm
  · intro w' e
    rw [plus_assign_eq] at e
    have hsz := hb.size_eq
    simp only [size] at hsz
    simp only [for_each, begin_, end_, hsz] at e
    rcases hb with ⟨ho, hT0, hk0⟩ | ⟨blk, ho, hrest⟩
    · subst hT0
      simp only [List.length_nil, for_each_n] at e
      exact Except.noConfusion e
    · have hb' : Holds w b T k := Or.inr ⟨blk, ho, hrest⟩
      have hR : RangeAt w blk 0 T := Holds.range hb' (by rw [ho])
      have hne : (w.objs a).elements ≠ .addr blk 0 := by
        intro e'
        have := hsep.2 (by rw [e', ho])
        rw [e'] at this
        exact Ptr.noConfusion this
      rw [ho] at e
      obtain ⟨pre, suf, m', hT, hsuf, hh, f⟩ := push_loop_bad_alloc a blk T 0 w w' S m ha hR hne e
      exact ⟨pre, suf, m', hT, hsuf, hh, f.1 b (Ne.symm hsep.1), (f.keep hb' hsep).1⟩
  · intro pre d suf w1 hT e1 hfull hno
    obtain ⟨m', h1, f⟩ := push_fold_ok a pre w w1 S m ha e1
    exact ⟨plus_assign_fail ha hb hsep pre d suf hT e1 hfull hno, m', h1,
      f.1 b (Ne.symm hsep.1), (f.keep hb hsep).1⟩

/-- C16 (amended) at the memory without a free slot: the full object "hi"
and the object "bye". -/
theorem C16_alloc_failure_witness :
    ((∀ w', reserve tight 0 10 = .error (.bad_alloc w') → w' = tight) ∧
      (2 < 10 → ¬ (10 ≤ max_size ∧ 10 ≤ tight.room) →
        reserve tight 0 10 = .error (.bad_alloc tight))) ∧
    ((∀ w', push_back tight 0 'x' = .error (.bad_alloc w') → w' = tight) ∧
      (['h', 'i'].length = 2 →
        ¬ (max 1 (2 * ['h', 'i'].length) ≤ max_size ∧ max 1 (2 * ['h', 'i'].length) ≤ tight.room) →
        push_back tight 0 'x' = .error (.bad_alloc tight))) ∧
    ((∀ w', operator_assign tight 0 1 = .error (.bad_alloc w') → w' = tight) ∧
      (¬ ['b', 'y', 'e'].length ≤ tight.room →
        operator_assign tight 0 1 = .error (.bad_alloc tight))) ∧
    ((∀ w', operator_plus_assign tight 0 1 = .error (.bad_alloc w') →
      ∃ pre suf m', ['b', 'y', 'e'] = pre ++ suf ∧ suf ≠ [] ∧ Holds w' 0 (['h', 'i'] ++ pre) m' ∧
        w'.objs 1 = tight.objs 1 ∧ Holds w' 1 ['b', 'y', 'e'] 4) ∧
      (∀ pre d suf w1, ['b', 'y', 'e'] = pre ++ d :: suf →
        pre.foldlM (fun w c => push_back w 0 c) tight = .ok w1 →
        size w1 0 = capacity w1 0 →
        ¬ (max 1 (2 * size w1 0) ≤ max_size ∧ max 1 (2 * size w1 0) ≤ w1.room) →
        operator_plus_assign tight 0 1 = .error (.bad_alloc w1) ∧
          ∃ m', Holds w1 0 (['h', 'i'] ++ pre) m' ∧ w1.objs 1 = tight.objs 1 ∧
            Holds w1 1 ['b', 'y', 'e'] 4)) :=
  C16_alloc_failure tight 0 1 ['h', 'i'] ['b', 'y', 'e'] 2 4 10 'x' tight_holds0 tight_holds1
    ⟨by decide, by decide⟩

/-! ## What the operations that allocate have done when they return -/

/-- On an object in the empty state (three null cursors) `operator>>` does
what its loop says: the object ends with exactly the extracted characters. -/
theorem shift_right_null (w : World) (s : Nat) (cs : List Char)
    (ho : w.objs s = ⟨.null, .null, .null⟩)
    (hroom : 3 * cs.length ≤ w.room ∧ 2 * cs.length ≤ max_size) :
    ∃ w' m', operator_shift_right w cs s = .ok w' ∧ Holds w' s cs m' := by
  have h : Holds w s [] 0 := Or.inl ⟨ho, rfl, rfl⟩
  obtain ⟨w', m', e, hh, _, _⟩ := push_fold_spec s cs w [] 0 h
    (Or.inr ⟨by simpa using hroom.1, by simpa using hroom.2⟩)
  have hfree : free w s = .ok w := by simp [free, ho]
  refine ⟨w', m', ?_, by simpa using hh⟩
  simp only [operator_shift_right, hfree, bind, Except.bind]
  exact e

/-- C17, the code at the failing inputs: on the object "hi" (length 2,
capacity 2) of the sample memory, `operator>>` with the input "x" releases the
storage and then reads it again in the growth step, which is undefined; on the
object "bye" (capacity 4) it constructs 'x' in the released storage, which is
undefined; and with an empty input it returns with the length still 2 instead
of 0. -/
theorem C17_stream_fill_on_used_object :
    operator_shift_right sample ['x'] 0 = .error .undefined ∧
    operator_shift_right sample ['x'] 1 = .error .undefined ∧
    ∃ w', operator_shift_right sample [] 0 = .ok w' ∧ length sample 0 = 2 ∧ length w' 0 = 2 :=
  ⟨rfl, rfl, _, rfl, by decide, by decide⟩

/-- C18, the code at the failing input: on the object "hi" of the sample
memory, `operator>>` with an empty input returns with the cursors still at
block 1, which it has released; the destructor then releases that block a
second time, which is undefined. -/
theorem C18_stream_fill_leaves_dangling :
    ∃ w', operator_shift_right sample [] 0 = .ok w' ∧
      (sample.objs 0).elements = .addr 1 0 ∧ (sample.blocks 1).live = true ∧
      (w'.objs 0).elements = .addr 1 0 ∧ (w'.blocks 1).live = false ∧
      destructor w' 0 = .error .undefined :=
  ⟨_, rfl, rfl, rfl, rfl, rfl, rfl⟩

end MyLibrary
